import Mathlib

/-!
# RegionFile: a verification development

Shallow embedding of `dbms/src/Storages/Transaction/RegionFile.cpp`.

* The liveness index `regions` (a C++ map from region id to size) is an
  association list read through `find`; `erase` removes the key,
  `insert_or_assign` overwrites the value of a present key and adds an
  absent one.
* A member function becomes a function from the objects it may touch to its
  return value and their new values: `tryCoverRegion self other region_id`
  returns `(result, self afterwards, other afterwards)`.
* Files are byte lists; a read buffer is a byte list with a read position.
  A seek is refused for an offset of `2^63` and above or above `seek_limit`,
  the largest offset the file system accepts (a parameter).
* Storage for `destroy` and `resetId` is a map from paths to file contents.
* `Float64` arithmetic is not modelled: `useRate` takes the conversion and
  the division as parameters.
-/

namespace DB

/-! ## Data model -/

/-- Region identifiers, `UInt64` in the source. -/
abbrev RegionID := Nat

/-- Bytes of a file. -/
abbrev Byte := Nat

/-- The map type of `RegionFile::regions`: region id to serialized size. -/
abbrev RegionAndSizeMap := List (RegionID × Nat)

namespace RegionAndSizeMap

/-- Value stored under `k`, as `m.find(k)` compared with `m.end()`. -/
def find : RegionAndSizeMap → RegionID → Option Nat
  | [], _ => none
  | (k', v) :: rest, k => if k' = k then some v else find rest k

/-- Whether `k` is a key: `m.find(k) != m.end()`. -/
def contains (m : RegionAndSizeMap) (k : RegionID) : Bool :=
  (find m k).isSome

/-- The entries of `m` whose key is not `k`. -/
def eraseKey : RegionAndSizeMap → RegionID → RegionAndSizeMap
  | [], _ => []
  | (k', v) :: rest, k => if k' = k then eraseKey rest k else (k', v) :: eraseKey rest k

/-- The entries of `m`, the value under key `k` replaced by `v`. -/
def assignKey : RegionAndSizeMap → RegionID → Nat → RegionAndSizeMap
  | [], _, _ => []
  | (k', w) :: rest, k, v =>
    if k' = k then (k', v) :: assignKey rest k v else (k', w) :: assignKey rest k v

/-- Model of `m.erase(k)`: the map without key `k`, and the number of
elements removed. -/
def erase (m : RegionAndSizeMap) (k : RegionID) : RegionAndSizeMap × Nat :=
  (eraseKey m k, if contains m k then 1 else 0)

/-- Model of `m.insert_or_assign(k, v)`: the new map, and `true` when an
insertion took place, `false` when an assignment took place. -/
def insert_or_assign (m : RegionAndSizeMap) (k : RegionID) (v : Nat) :
    RegionAndSizeMap × Bool :=
  if contains m k then (assignKey m k v, false) else ((k, v) :: m, true)

end RegionAndSizeMap

/-- The fields of `RegionFile`. -/
structure RegionFile where
  file_id : Nat
  parent_path : String
  file_size : Nat
  regions : RegionAndSizeMap
  deriving DecidableEq, Repr

namespace RegionFile

/-- Embedding of `RegionFile::tryCoverRegion(region_id, other)`: the returned
flag, this file afterwards, the other file afterwards. -/
def tryCoverRegion (self other : RegionFile) (region_id : RegionID) :
    Bool × RegionFile × RegionFile :=
  if other.file_id = self.file_id then
    (true, self, other)
  else if (RegionAndSizeMap.find other.regions region_id).isNone then
    (true, self, other)
  else if other.file_id > self.file_id then
    (false, { self with regions := (RegionAndSizeMap.erase self.regions region_id).1 }, other)
  else
    (false, self, { other with regions := (RegionAndSizeMap.erase other.regions region_id).1 })

/-- Embedding of `RegionFile::addRegion(region_id, region_size)`. -/
def addRegion (self : RegionFile) (region_id : RegionID) (region_size : Nat) :
    Bool × RegionFile :=
  let r := RegionAndSizeMap.insert_or_assign self.regions region_id region_size
  (!r.2, { self with regions := r.1 })

/-- Embedding of `RegionFile::dropRegion(region_id)`. -/
def dropRegion (self : RegionFile) (region_id : RegionID) : Bool × RegionFile :=
  let r := RegionAndSizeMap.erase self.regions region_id
  (decide (r.2 ≠ 0), { self with regions := r.1 })

end RegionFile

/-! ## Byte streams and the fixed-width integer codec -/

/-- Failures of the embedded operations (exceptions in the source). -/
inductive Error where
  /-- A file opened for reading does not exist. -/
  | cannotOpenFile
  /-- Fewer bytes remain in a read buffer than a fixed-width read needs. -/
  | cannotReadAllData
  /-- `Region::deserialize` rejected the bytes at the read position. -/
  | cannotDeserialize
  /-- A seek of a read buffer was refused. -/
  | cannotSeek
  /-- The index loop of the model ran out of fuel (never happens with the
  fuel `Reader.init` supplies, see `readMetas_fuel`). -/
  | outOfFuel
  deriving DecidableEq, Repr

/-- The two files of one `RegionFile` on storage: `dataPath()` and
`indexPath()`, each absent or holding bytes. -/
structure Files where
  data : Option (List Byte)
  index : Option (List Byte)
  deriving DecidableEq, Repr

/-- The eight bytes of a 64-bit unsigned value, lowest byte first. -/
def encodeUInt64 (x : Nat) : List Byte :=
  (List.range 8).map (fun i => x / 256 ^ i % 256)

/-- The value of a byte sequence read lowest byte first. -/
def decodeUInt64 : List Byte → Nat
  | [] => 0
  | b :: rest => b % 256 + 256 * decodeUInt64 rest

/-- Modelled from the spec: `writeIntBinary` of IO/WriteHelpers.h, which
appends the 8 bytes of a 64-bit value to a write buffer (fixed byte order). -/
def writeIntBinary (x : Nat) (buf : List Byte) : List Byte :=
  buf ++ encodeUInt64 x

/-- A `ReadBufferFromFile`: the bytes of the file and the read position. -/
structure ReadBuffer where
  content : List Byte
  pos : Nat
  deriving DecidableEq, Repr

/-- Modelled from the spec: the constant `DBMS_DEFAULT_BUFFER_SIZE` of
Core/Defines.h, which the sources use and do not define: the default size
of a file buffer, one mebibyte. -/
def DBMS_DEFAULT_BUFFER_SIZE : Nat := 1048576

/-- Modelled from the spec: the constructor of `ReadBufferFromFile`
(IO/ReadBufferFromFile.h, not among the sources) on an existing file with a
buffer of `buf_size` bytes, positioned at 0. A buffer of size 0 cannot take
in any byte of the file: every read through it finds the end of the data at
once. -/
def ReadBufferFromFile (file : List Byte) (buf_size : Nat) : ReadBuffer :=
  { content := if buf_size = 0 then [] else file, pos := 0 }

/-- Modelled from the spec: the call `buf.seek(offset)` of a
`ReadBufferFromFile` (not among the sources), whose parameter is a signed
64-bit file offset: the 64-bit unsigned value `offset` is refused
when it reads as a negative offset (`2^63` and above) and when it lies
above `seek_limit`, the largest offset the file system accepts; otherwise
it becomes the read position. -/
def ReadBuffer.seek (seek_limit : Nat) (buf : ReadBuffer) (offset : Nat) :
    Except Error ReadBuffer :=
  if offset ≥ 2 ^ 63 ∨ offset > seek_limit then .error Error.cannotSeek
  else .ok { buf with pos := offset }

/-- The test `buf.eof()`: no byte is left at the read position. -/
def ReadBuffer.eof (buf : ReadBuffer) : Bool :=
  decide (buf.content.length ≤ buf.pos)

/-- Modelled from the spec: `readBinary2<UInt64>` of IO/ReadHelpers.h, which
reads 8 bytes as a 64-bit value and fails when fewer than 8 remain. -/
def readBinary2 (buf : ReadBuffer) : Except Error (Nat × ReadBuffer) :=
  if buf.pos + 8 ≤ buf.content.length then
    .ok (decodeUInt64 ((buf.content.drop buf.pos).take 8), { buf with pos := buf.pos + 8 })
  else
    .error Error.cannotReadAllData

/-- Modelled from the spec: the consumed `Region` collaborator
(`id()`, `serialize(stream)`, `deserialize(stream)`; Region.h is not part of
the sources). `serialize` gives the bytes appended to the stream, whose
count is the returned size; `deserialize` sees the bytes from the read
position on and gives the region and the number of bytes it consumed, or
`none` when it throws. -/
structure RegionCodec (Region : Type) where
  id : Region → RegionID
  serialize : Region → List Byte
  deserialize : List Byte → Option (Region × Nat)

/-! ## Writer -/

/-- The fields of `RegionFile::Writer`. `data_file_size` is the writer's
reference to `file_size` of its `RegionFile`; the two buffers hold the bytes
of the files opened in append mode. -/
structure Writer where
  data_file_size : Nat
  data_file_buf : List Byte
  index_file_buf : List Byte
  deriving DecidableEq, Repr

namespace Writer

/-- Embedding of the constructor `Writer(region_file)`: both files are opened
with `O_APPEND | O_WRONLY | O_CREAT`, an absent file starts empty. -/
def init (region_file : RegionFile) (files : Files) : Writer :=
  { data_file_size := region_file.file_size
    data_file_buf := files.data.getD []
    index_file_buf := files.index.getD [] }

/-- Embedding of `Writer::write(region)`: the returned size and the writer
afterwards. The returned `region_size` is the number of bytes `serialize`
appended; `data_file_size` (an `off_t`) is counted as a natural number. -/
def write {Region : Type} (codec : RegionCodec Region) (w : Writer) (region : Region) :
    Nat × Writer :=
  let bytes := codec.serialize region
  let region_size := bytes.length
  let data_file_buf := w.data_file_buf ++ bytes
  let index_file_buf := writeIntBinary (codec.id region) w.index_file_buf
  let index_file_buf := writeIntBinary region_size index_file_buf
  let index_file_buf := writeIntBinary 0 index_file_buf
  (region_size,
    { data_file_size := w.data_file_size + region_size
      data_file_buf := data_file_buf
      index_file_buf := index_file_buf })

/-- Embedding of the destructor `~Writer()`: both buffers reach the files, and
the `RegionFile` holds the size the writer counted through its reference. -/
def close (region_file : RegionFile) (w : Writer) : RegionFile × Files :=
  ({ region_file with file_size := w.data_file_size },
    { data := some w.data_file_buf, index := some w.index_file_buf })

/-- A writer session: `write` for each region of the list, in order. -/
def writeAll {Region : Type} (codec : RegionCodec Region) (w : Writer) (rs : List Region) :
    Writer :=
  rs.foldl (fun w r => (write codec w r).2) w

end Writer

/-! ## Reader -/

/-- One `ReaderMeta`, the in-memory projection of an index entry. -/
structure ReaderMeta where
  region_id : RegionID
  region_size : Nat
  deriving DecidableEq, Repr

/-- The fields of `RegionFile::Reader`. -/
structure Reader where
  data_file_buf : ReadBuffer
  metas : List ReaderMeta
  cur_region_index : Nat
  cur_region_size : Nat
  cur_region_offset : Nat
  deriving DecidableEq, Repr

/-- The loop `while (!index_file_buf.eof())` of the Reader constructor: three
8-byte reads for each entry, the third one dropped. The first argument
bounds the number of iterations of the model. -/
def readMetas : Nat → ReadBuffer → List ReaderMeta → Except Error (List ReaderMeta)
  | 0, _, _ => .error Error.outOfFuel
  | fuel + 1, index_file_buf, metas =>
    if index_file_buf.eof then .ok metas
    else
      match readBinary2 index_file_buf with
      | .error e => .error e
      | .ok (region_id, buf1) =>
        match readBinary2 buf1 with
        | .error e => .error e
        | .ok (region_size, buf2) =>
          match readBinary2 buf2 with
          | .error e => .error e
          | .ok (_, buf3) =>
            readMetas fuel buf3 (metas ++ [{ region_id := region_id, region_size := region_size }])

namespace Reader

/-- Embedding of the constructor `Reader(region_file)`: the data file is
opened for reading at position 0 with a buffer of
`min(file_size, DBMS_DEFAULT_BUFFER_SIZE)` bytes, the whole index file is
decoded into `metas`, the cursor fields start at 0. Opening an absent file
fails. -/
def init (region_file : RegionFile) (files : Files) : Except Error Reader :=
  match files.data with
  | none => .error Error.cannotOpenFile
  | some data =>
    match files.index with
    | none => .error Error.cannotOpenFile
    | some index =>
      match readMetas (index.length + 1) { content := index, pos := 0 } [] with
      | .error e => .error e
      | .ok metas =>
        .ok { data_file_buf :=
                ReadBufferFromFile data (min region_file.file_size DBMS_DEFAULT_BUFFER_SIZE)
              metas := metas
              cur_region_index := 0
              cur_region_size := 0
              cur_region_offset := 0 }

/-- Embedding of `Reader::hasNext()`: the returned id and the reader
afterwards. `InvalidRegionID` is a constant of the repository that the
sources do not define; it is a parameter here. -/
def hasNext (InvalidRegionID : RegionID) (r : Reader) : RegionID × Reader :=
  if h : r.cur_region_index ≥ r.metas.length then
    (InvalidRegionID, r)
  else
    let entry := r.metas.get ⟨r.cur_region_index, Nat.lt_of_not_ge h⟩
    (entry.region_id,
      { r with cur_region_index := r.cur_region_index + 1
               cur_region_size := entry.region_size })

/-- Embedding of `Reader::next()`: `cur_region_offset` moves by the cached
size (64-bit unsigned arithmetic), then one region is deserialized from
the read position of the data file. -/
def next {Region : Type} (codec : RegionCodec Region) (r : Reader) :
    Except Error (Region × Reader) :=
  let cur_region_offset := (r.cur_region_offset + r.cur_region_size) % 2 ^ 64
  match codec.deserialize (r.data_file_buf.content.drop r.data_file_buf.pos) with
  | none => .error Error.cannotDeserialize
  | some (region, n) =>
    .ok (region,
      { r with cur_region_offset := cur_region_offset
               data_file_buf := { r.data_file_buf with pos := r.data_file_buf.pos + n } })

/-- Embedding of `Reader::skipNext()`: first the data file is sought to
`cur_region_offset + cur_region_size` (64-bit unsigned arithmetic); when
the seek is refused the call fails with the cursor as it was, otherwise
`cur_region_offset` moves by the cached size. -/
def skipNext (seek_limit : Nat) (r : Reader) : Except Error Reader :=
  match r.data_file_buf.seek seek_limit ((r.cur_region_offset + r.cur_region_size) % 2 ^ 64) with
  | .error e => .error e
  | .ok data_file_buf =>
    .ok { r with data_file_buf := data_file_buf
                 cur_region_offset := (r.cur_region_offset + r.cur_region_size) % 2 ^ 64 }

/-- The caller's loop over a reader: `n` times `hasNext` followed by `next`,
collecting the id each `hasNext` returned with the region `next` returned. -/
def readAll {Region : Type} (codec : RegionCodec Region) (InvalidRegionID : RegionID) :
    Nat → Reader → Except Error (List (RegionID × Region) × Reader)
  | 0, r => .ok ([], r)
  | n + 1, r =>
    let p := hasNext InvalidRegionID r
    match next codec p.2 with
    | .error e => .error e
    | .ok (region, r2) =>
      match readAll codec InvalidRegionID n r2 with
      | .error e => .error e
      | .ok (rest, r3) => .ok ((p.1, region) :: rest, r3)

/-- The caller's protocol over a reader: for each element of the list one
`hasNext` followed by exactly one `next` (`true`) or `skipNext` (`false`). -/
def steps {Region : Type} (codec : RegionCodec Region) (InvalidRegionID : RegionID)
    (seek_limit : Nat) : List Bool → Reader → Except Error Reader
  | [], r => .ok r
  | useNext :: rest, r =>
    let r1 := (hasNext InvalidRegionID r).2
    if useNext then
      match next codec r1 with
      | .error e => .error e
      | .ok (_, r2) => steps codec InvalidRegionID seek_limit rest r2
    else
      match skipNext seek_limit r1 with
      | .error e => .error e
      | .ok r2 => steps codec InvalidRegionID seek_limit rest r2

end Reader

/-- The 24 bytes of one index entry `(region_id, region_size, 0)`. -/
def indexEntryBytes (region_id region_size : Nat) : List Byte :=
  encodeUInt64 region_id ++ (encodeUInt64 region_size ++ encodeUInt64 0)

/-- The index bytes a writer session appends for the regions of a list. -/
def indexBytes {Region : Type} (codec : RegionCodec Region) : List Region → List Byte
  | [] => []
  | r :: rs => indexEntryBytes (codec.id r) (codec.serialize r).length ++ indexBytes codec rs

/-- The data bytes a writer session appends for the regions of a list. -/
def dataBytes {Region : Type} (codec : RegionCodec Region) : List Region → List Byte
  | [] => []
  | r :: rs => codec.serialize r ++ dataBytes codec rs

/-- The index entry of a region as the reader decodes it. -/
def metaOf {Region : Type} (codec : RegionCodec Region) (r : Region) : ReaderMeta :=
  { region_id := codec.id r % 2 ^ 64, region_size := (codec.serialize r).length % 2 ^ 64 }

/-- A `RegionFile` nothing was written to: size 0, no region owned. -/
def RegionFile.fresh (file_id : Nat) (parent_path : String) : RegionFile :=
  { file_id := file_id, parent_path := parent_path, file_size := 0, regions := [] }

/-- The storage of a fresh `RegionFile`: neither file exists yet. -/
def Files.fresh : Files := { data := none, index := none }

/-- Regions of the concrete scenario: region 1 with payload "AAAA" and
region 2 with payload "BBBBBB". -/
inductive DemoRegion where
  | r1
  | r2
  deriving DecidableEq, Repr

/-- A reader of the concrete scenario, freshly constructed: index entries
`(1, 4)` and `(2, 6)`, data bytes "AAAABBBBBB". -/
def demoReader : Reader :=
  { data_file_buf := { content := [65, 65, 65, 65, 66, 66, 66, 66, 66, 66], pos := 0 }
    metas := [{ region_id := 1, region_size := 4 }, { region_id := 2, region_size := 6 }]
    cur_region_index := 0
    cur_region_size := 0
    cur_region_offset := 0 }

/-- The reader of the concrete scenario after one step (`hasNext`, then `next`
or `skipNext`): entry cursor 1, cached size 4, offset and data position 4. -/
def demoReaderAt1 : Reader :=
  { data_file_buf := { content := [65, 65, 65, 65, 66, 66, 66, 66, 66, 66], pos := 4 }
    metas := [{ region_id := 1, region_size := 4 }, { region_id := 2, region_size := 6 }]
    cur_region_index := 1
    cur_region_size := 4
    cur_region_offset := 4 }

/-- A region codec for the concrete scenario; each payload is recognised by
its bytes. -/
def demoCodec : RegionCodec DemoRegion where
  id := fun r => match r with
    | .r1 => 1
    | .r2 => 2
  serialize := fun r => match r with
    | .r1 => [65, 65, 65, 65]
    | .r2 => [66, 66, 66, 66, 66, 66]
  deserialize := fun bytes =>
    if bytes.take 4 = [65, 65, 65, 65] then some (.r1, 4)
    else if bytes.take 6 = [66, 66, 66, 66, 66, 66] then some (.r2, 6)
    else none

/-! ## Cursor arithmetic of the reader -/

/-- The sum of the `region_size` of a run of index entries. -/
def sizeSum : List ReaderMeta → Nat
  | [] => 0
  | m :: ms => m.region_size + sizeSum ms

/-- Along the protocol `Reader.steps`, whether every `next` found its
`deserialize` consuming exactly the size `hasNext` cached: the data
position after each `next` is the position before it plus
`cur_region_size`. A run in which a step fails does not qualify. -/
def Reader.consumesRecorded {Region : Type} (codec : RegionCodec Region)
    (InvalidRegionID : RegionID) (seek_limit : Nat) : List Bool → Reader → Bool
  | [], _ => true
  | useNext :: rest, r =>
    let r1 := (Reader.hasNext InvalidRegionID r).2
    if useNext then
      match Reader.next codec r1 with
      | .error _ => false
      | .ok (_, r2) =>
        decide (r2.data_file_buf.pos = r1.data_file_buf.pos + r1.cur_region_size) &&
          Reader.consumesRecorded codec InvalidRegionID seek_limit rest r2
    else
      match Reader.skipNext seek_limit r1 with
      | .error _ => false
      | .ok r2 => Reader.consumesRecorded codec InvalidRegionID seek_limit rest r2

/-- A freshly constructed reader over the data bytes "AAAABBBBBB" and an index
whose two entries record the sizes `2^63 - 1` and `2^63 + 1`, which sum to
`2^64`. -/
def wrapReader : Reader :=
  { data_file_buf := { content := [65, 65, 65, 65, 66, 66, 66, 66, 66, 66], pos := 0 }
    metas := [{ region_id := 1, region_size := 9223372036854775807 },
              { region_id := 2, region_size := 9223372036854775809 }]
    cur_region_index := 0
    cur_region_size := 0
    cur_region_offset := 0 }

/-- The index entry whose 24 bytes start at `pos`: region id from the first
8 bytes, region size from the next 8, the last 8 not looked at. -/
def entryAt (content : List Byte) (pos : Nat) : ReaderMeta :=
  { region_id := decodeUInt64 ((content.drop pos).take 8)
    region_size := decodeUInt64 ((content.drop (pos + 8)).take 8) }

/-- The `n` index entries laid out from `pos` on, in file order. -/
def metasFrom (content : List Byte) : Nat → Nat → List ReaderMeta
  | _, 0 => []
  | pos, n + 1 => entryAt content pos :: metasFrom content (pos + 24) n

/-- The sizes `write` returns in a writer session, in order. -/
def Writer.writeSizes {Region : Type} (codec : RegionCodec Region) :
    Writer → List Region → List Nat
  | _, [] => []
  | w, r :: rs => (Writer.write codec w r).1 :: Writer.writeSizes codec (Writer.write codec w r).2 rs

/-! ## Storage paths, `destroy`, `resetId`, `useRate` -/

/-- Storage by path: the bytes of the file at a path, `none` when no file
exists there. -/
abbrev FileSystem := String → Option (List Byte)

namespace FileSystem

/-- The effect of `Poco::File(path).remove()` on an existing file. -/
def remove (fs : FileSystem) (path : String) : FileSystem :=
  fun q => if q = path then none else fs q

/-- The effect of `Poco::File(path).renameTo(new_path)` on an existing file. -/
def renameTo (fs : FileSystem) (path new_path : String) : FileSystem :=
  fun q => if q = new_path then fs path else if q = path then none else fs q

/-- Storage with the file at `path` holding `content` (absent for `none`). -/
def store (fs : FileSystem) (path : String) (content : Option (List Byte)) : FileSystem :=
  fun q => if q = path then content else fs q

end FileSystem

/-- The two file-name suffix constants `REGION_DATA_FILE_SUFFIX` and
`REGION_INDEX_FILE_SUFFIX`, which the sources use and do not define. -/
structure Suffixes where
  REGION_DATA_FILE_SUFFIX : String
  REGION_INDEX_FILE_SUFFIX : String

namespace RegionFile

/-- Embedding of `RegionFile::dataPath(the_file_id)`. -/
def dataPathOf (sfx : Suffixes) (self : RegionFile) (the_file_id : Nat) : String :=
  self.parent_path ++ toString the_file_id ++ sfx.REGION_DATA_FILE_SUFFIX

/-- Embedding of `RegionFile::indexPath(the_file_id)`. -/
def indexPathOf (sfx : Suffixes) (self : RegionFile) (the_file_id : Nat) : String :=
  self.parent_path ++ toString the_file_id ++ sfx.REGION_INDEX_FILE_SUFFIX

/-- Embedding of `RegionFile::dataPath()`. -/
def dataPath (sfx : Suffixes) (self : RegionFile) : String :=
  dataPathOf sfx self self.file_id

/-- Embedding of `RegionFile::indexPath()`. -/
def indexPath (sfx : Suffixes) (self : RegionFile) : String :=
  indexPathOf sfx self self.file_id

/-- Embedding of `RegionFile::destroy()`: the index file, then the data file,
is removed when it exists; `regions` is cleared and `file_size` set to 0. -/
def destroy (sfx : Suffixes) (self : RegionFile) (fs : FileSystem) : RegionFile × FileSystem :=
  let fs1 := if (fs (indexPath sfx self)).isSome then fs.remove (indexPath sfx self) else fs
  let fs2 := if (fs1 (dataPath sfx self)).isSome then fs1.remove (dataPath sfx self) else fs1
  ({ self with regions := [], file_size := 0 }, fs2)

/-- Embedding of `RegionFile::resetId(new_file_id)`: the index file, then the
data file, is renamed when it exists; `file_id` becomes `new_file_id`. -/
def resetId (sfx : Suffixes) (self : RegionFile) (fs : FileSystem) (new_file_id : Nat) :
    RegionFile × FileSystem :=
  let fs1 :=
    if (fs (indexPath sfx self)).isSome then
      fs.renameTo (indexPath sfx self) (indexPathOf sfx self new_file_id)
    else fs
  let fs2 :=
    if (fs1 (dataPath sfx self)).isSome then
      fs1.renameTo (dataPath sfx self) (dataPathOf sfx self new_file_id)
    else fs1
  ({ self with file_id := new_file_id }, fs2)

/-- The accumulation loop of `RegionFile::useRate()`:
`size_t size = 0; for (auto & p : regions) size += p.second;`
in 64-bit unsigned arithmetic. -/
def useRateSize (regions : RegionAndSizeMap) : Nat :=
  regions.foldl (fun size p => (size + p.2) % 2 ^ 64) 0

end RegionFile

/-- The `Float64` operations `useRate` uses. Floating-point arithmetic is not
modelled: the conversion of an integer to `Float64` and the `Float64`
division are parameters. -/
structure Float64Ops (F : Type) where
  ofInteger : Nat → F
  div : F → F → F

/-- Embedding of `RegionFile::useRate()`: `((Float64)size) / file_size`. -/
def RegionFile.useRate {F : Type} (ops : Float64Ops F) (self : RegionFile) : F :=
  ops.div (ops.ofInteger (RegionFile.useRateSize self.regions)) (ops.ofInteger self.file_size)

/-! ## Sequences of operations on one RegionFile -/

/-- The operations on a `RegionFile`. `tryCoverRegion` is the call on this
file with `other` as argument, `coveredBy` the call on `other` with this
file as argument; `write` is a writer session that writes one region. -/
inductive Op (Region : Type) where
  | addRegion (region_id : RegionID) (region_size : Nat)
  | dropRegion (region_id : RegionID)
  | tryCoverRegion (region_id : RegionID) (other : RegionFile)
  | coveredBy (region_id : RegionID) (other : RegionFile)
  | write (region : Region)
  | destroy
  | resetId (new_file_id : Nat)

/-- The effect of one operation on a `RegionFile` and the storage. -/
def applyOp {Region : Type} (codec : RegionCodec Region) (sfx : Suffixes) :
    Op Region → RegionFile × FileSystem → RegionFile × FileSystem
  | .addRegion region_id region_size, (self, fs) =>
    ((RegionFile.addRegion self region_id region_size).2, fs)
  | .dropRegion region_id, (self, fs) => ((RegionFile.dropRegion self region_id).2, fs)
  | .tryCoverRegion region_id other, (self, fs) =>
    ((RegionFile.tryCoverRegion self other region_id).2.1, fs)
  | .coveredBy region_id other, (self, fs) =>
    ((RegionFile.tryCoverRegion other self region_id).2.2, fs)
  | .write region, (self, fs) =>
    let files : Files :=
      { data := fs (RegionFile.dataPath sfx self), index := fs (RegionFile.indexPath sfx self) }
    let w := (Writer.write codec (Writer.init self files) region).2
    let closed := Writer.close self w
    (closed.1,
      (fs.store (RegionFile.dataPath sfx self) closed.2.data).store
        (RegionFile.indexPath sfx self) closed.2.index)
  | .destroy, (self, fs) => RegionFile.destroy sfx self fs
  | .resetId new_file_id, (self, fs) => RegionFile.resetId sfx self fs new_file_id

/-- The effect of a sequence of operations, in order. -/
def applyOps {Region : Type} (codec : RegionCodec Region) (sfx : Suffixes) :
    List (Op Region) → RegionFile × FileSystem → RegionFile × FileSystem
  | [], s => s
  | op :: ops, s => applyOps codec sfx ops (applyOp codec sfx op s)

/-- Whether an operation is neither a `write` nor a `destroy`. -/
def Op.keepsSize {Region : Type} : Op Region → Bool
  | .write _ => false
  | .destroy => false
  | _ => true

/-! ## Facts about the map model -/

namespace RegionAndSizeMap

theorem find_eraseKey_self (m : RegionAndSizeMap) (k : RegionID) :
    find (eraseKey m k) k = none := by
  induction m with
  | nil => rfl
  | cons p rest ih =>
    obtain ⟨k', v⟩ := p
    by_cases h : k' = k
    · simp only [eraseKey, h, if_true, ih]
    · simp only [eraseKey, h, if_false, find, ih]

theorem find_eraseKey_ne (m : RegionAndSizeMap) (k k2 : RegionID) (hne : k2 ≠ k) :
    find (eraseKey m k) k2 = find m k2 := by
  induction m with
  | nil => rfl
  | cons p rest ih =>
    obtain ⟨k', v⟩ := p
    by_cases h : k' = k
    · have h2 : ¬ k' = k2 := fun e => hne (e ▸ h ▸ rfl)
      simp only [eraseKey, h, if_true, find, ih]
      rw [← h]
      simp only [h2, if_false]
    · by_cases h3 : k' = k2
      · subst h3
        simp only [eraseKey, h, if_false, find, if_true]
      · simp only [eraseKey, h, if_false, find, h3, ih]

theorem find_erase_self (m : RegionAndSizeMap) (k : RegionID) :
    find (erase m k).1 k = none := find_eraseKey_self m k

theorem find_erase_ne (m : RegionAndSizeMap) (k k2 : RegionID) (hne : k2 ≠ k) :
    find (erase m k).1 k2 = find m k2 := find_eraseKey_ne m k k2 hne

theorem contains_erase_self (m : RegionAndSizeMap) (k : RegionID) :
    contains (erase m k).1 k = false := by
  simp [contains, find_erase_self]

theorem eraseKey_of_find_none (m : RegionAndSizeMap) (k : RegionID)
    (h : find m k = none) : eraseKey m k = m := by
  induction m with
  | nil => rfl
  | cons p rest ih =>
    obtain ⟨k', v⟩ := p
    by_cases h1 : k' = k
    · simp [find, h1] at h
    · simp only [find, h1, if_false] at h
      simp only [eraseKey, h1, if_false, ih h]

theorem erase_erase (m : RegionAndSizeMap) (k : RegionID) :
    (erase (erase m k).1 k).1 = (erase m k).1 :=
  eraseKey_of_find_none _ _ (find_eraseKey_self m k)

theorem find_assignKey (m : RegionAndSizeMap) (k : RegionID) (v : Nat) (k2 : RegionID) :
    find (assignKey m k v) k2 =
      if k2 = k then (if contains m k then some v else none) else find m k2 := by
  induction m with
  | nil => simp [find, contains, assignKey]
  | cons p rest ih =>
    obtain ⟨k', w⟩ := p
    by_cases h1 : k' = k
    · subst h1
      by_cases h2 : k2 = k'
      · subst h2
        simp [find, contains, assignKey]
      · have h3 : ¬ k' = k2 := fun e => h2 e.symm
        simp [find, assignKey, h2, h3, ih]
    · by_cases h2 : k2 = k
      · subst h2
        simp [find, assignKey, h1, ih, contains]
      · by_cases h3 : k' = k2
        · simp [find, assignKey, h1, h2, h3]
        · simp [find, assignKey, h1, h2, h3, ih]

theorem find_insert_self (m : RegionAndSizeMap) (k : RegionID) (v : Nat) :
    find (insert_or_assign m k v).1 k = some v := by
  unfold insert_or_assign
  by_cases h : contains m k = true
  · simp [h, find_assignKey]
  · simp [h, find]

theorem find_insert_ne (m : RegionAndSizeMap) (k : RegionID) (v : Nat) (k2 : RegionID)
    (hne : k2 ≠ k) : find (insert_or_assign m k v).1 k2 = find m k2 := by
  unfold insert_or_assign
  by_cases h : contains m k = true
  · simp [h, find_assignKey, hne]
  · have h3 : ¬ k = k2 := fun e => hne e.symm
    simp [h, find, h3]

end RegionAndSizeMap

/-! ## The index codec -/

theorem encodeUInt64_eq (x : Nat) :
    encodeUInt64 x =
      [x % 256, x / 256 % 256, x / 65536 % 256, x / 16777216 % 256,
        x / 4294967296 % 256, x / 1099511627776 % 256, x / 281474976710656 % 256,
        x / 72057594037927936 % 256] := by
  simp [encodeUInt64, List.range_succ]

theorem encodeUInt64_length (x : Nat) : (encodeUInt64 x).length = 8 := by
  simp [encodeUInt64]

theorem decode_encodeUInt64 (x : Nat) : decodeUInt64 (encodeUInt64 x) = x % 2 ^ 64 := by
  rw [encodeUInt64_eq]
  simp only [decodeUInt64]
  omega

/-- A fixed-width read at the start of an encoded value gives the value back
(as a 64-bit quantity) and moves the position by 8. -/
theorem readBinary2_encode (buf : ReadBuffer) (pre rest : List Byte) (x : Nat)
    (hc : buf.content = pre ++ (encodeUInt64 x ++ rest)) (hp : buf.pos = pre.length) :
    readBinary2 buf = .ok (x % 2 ^ 64, { buf with pos := buf.pos + 8 }) := by
  have hlen : buf.pos + 8 ≤ buf.content.length := by
    rw [hc, hp]
    simp [encodeUInt64_length]
  have htake : (buf.content.drop buf.pos).take 8 = encodeUInt64 x := by
    rw [hc, hp, List.drop_left]
    rw [← encodeUInt64_length x, List.take_left]
  simp only [readBinary2, hlen, if_true, htake, decode_encodeUInt64]

theorem indexEntryBytes_length (a b : Nat) : (indexEntryBytes a b).length = 24 := by
  simp [indexEntryBytes, encodeUInt64_length]

/-- The index loop decodes what a writer session wrote: one meta for each
region, in write order. -/
theorem readMetas_indexBytes {Region : Type} (codec : RegionCodec Region) (rs : List Region) :
    ∀ (pre : List Byte) (acc : List ReaderMeta) (fuel : Nat), rs.length < fuel →
      readMetas fuel { content := pre ++ indexBytes codec rs, pos := pre.length } acc =
        .ok (acc ++ rs.map (metaOf codec)) := by
  induction rs with
  | nil =>
    intro pre acc fuel hf
    cases fuel with
    | zero => exact absurd hf (Nat.not_lt_zero _)
    | succ f => simp [readMetas, ReadBuffer.eof, indexBytes]
  | cons r rs ih =>
    intro pre acc fuel hf
    cases fuel with
    | zero => exact absurd hf (Nat.not_lt_zero _)
    | succ f =>
      have hf2 : rs.length < f := by simpa using hf
      have heof : ReadBuffer.eof
          { content := pre ++ indexBytes codec (r :: rs), pos := pre.length } = false := by
        simp [ReadBuffer.eof, indexBytes, indexEntryBytes_length]
      have h1 := readBinary2_encode
        { content := pre ++ indexBytes codec (r :: rs), pos := pre.length } pre
        (encodeUInt64 (codec.serialize r).length ++ (encodeUInt64 0 ++ indexBytes codec rs))
        (codec.id r) (by simp [indexBytes, indexEntryBytes]) rfl
      have h2 := readBinary2_encode
        { content := pre ++ indexBytes codec (r :: rs), pos := pre.length + 8 }
        (pre ++ encodeUInt64 (codec.id r)) (encodeUInt64 0 ++ indexBytes codec rs)
        (codec.serialize r).length (by simp [indexBytes, indexEntryBytes])
        (by simp [encodeUInt64_length])
      have h3 := readBinary2_encode
        { content := pre ++ indexBytes codec (r :: rs), pos := pre.length + 8 + 8 }
        (pre ++ (encodeUInt64 (codec.id r) ++ encodeUInt64 (codec.serialize r).length))
        (indexBytes codec rs) 0 (by simp [indexBytes, indexEntryBytes])
        (by simp [encodeUInt64_length])
      have hc : pre ++ indexBytes codec (r :: rs) =
          (pre ++ indexEntryBytes (codec.id r) (codec.serialize r).length) ++
            indexBytes codec rs := by
        simp [indexBytes]
      have hpos : pre.length + 8 + 8 + 8 =
          (pre ++ indexEntryBytes (codec.id r) (codec.serialize r).length).length := by
        simp [indexEntryBytes_length]
      have hrec := ih (pre ++ indexEntryBytes (codec.id r) (codec.serialize r).length)
        (acc ++ [metaOf codec r]) f hf2
      rw [← hc, ← hpos] at hrec
      rw [readMetas]
      simp only [heof, Bool.false_eq_true, if_false, h1, h2, h3]
      simp only [metaOf] at hrec ⊢
      rw [hrec]
      simp [metaOf]

/-! ## Writer sessions -/

/-- What a writer session leaves in the writer: the serialized regions
appended to the data bytes, one index entry for each appended to the index
bytes. -/
theorem writeAll_bufs {Region : Type} (codec : RegionCodec Region) (rs : List Region) :
    ∀ w : Writer,
      (Writer.writeAll codec w rs).data_file_buf = w.data_file_buf ++ dataBytes codec rs ∧
      (Writer.writeAll codec w rs).index_file_buf = w.index_file_buf ++ indexBytes codec rs := by
  induction rs with
  | nil => intro w; simp [Writer.writeAll, dataBytes, indexBytes]
  | cons r rs ih =>
    intro w
    have h := ih (Writer.write codec w r).2
    simp only [Writer.writeAll, List.foldl_cons] at h ⊢
    rw [h.1, h.2]
    simp [Writer.write, writeIntBinary, dataBytes, indexBytes, indexEntryBytes]

/-! ## Reading back -/

/-- `hasNext` at an unread entry: it returns the entry's id, caches its size
and moves the entry cursor by one. -/
theorem hasNext_lt (InvalidRegionID : RegionID) (r : Reader)
    (h : r.cur_region_index < r.metas.length) :
    Reader.hasNext InvalidRegionID r =
      ((r.metas.get ⟨r.cur_region_index, h⟩).region_id,
        { r with cur_region_index := r.cur_region_index + 1
                 cur_region_size := (r.metas.get ⟨r.cur_region_index, h⟩).region_size }) := by
  have hn : ¬ r.cur_region_index ≥ r.metas.length := Nat.not_le.mpr h
  simp only [Reader.hasNext, hn, dite_false]

/-- `hasNext` once every entry is consumed: the sentinel, and no change. -/
theorem hasNext_ge (InvalidRegionID : RegionID) (r : Reader)
    (h : r.cur_region_index ≥ r.metas.length) :
    Reader.hasNext InvalidRegionID r = (InvalidRegionID, r) := by
  simp only [Reader.hasNext, h, dite_true]

/-- Reading back a run of written regions: with the entry cursor in front of
their metas and the data position in front of their bytes, the loop returns
them in order and ends with every entry consumed. -/
theorem readAll_written {Region : Type} (codec : RegionCodec Region)
    (InvalidRegionID : RegionID) (rs : List Region) :
    (∀ r ∈ rs, ∀ rest, codec.deserialize (codec.serialize r ++ rest) =
      some (r, (codec.serialize r).length)) →
    ∀ (rd : Reader) (pm : List ReaderMeta) (tail : List Byte),
      rd.metas = pm ++ rs.map (metaOf codec) →
      rd.cur_region_index = pm.length →
      rd.data_file_buf.content.drop rd.data_file_buf.pos = dataBytes codec rs ++ tail →
      ∃ rd2, Reader.readAll codec InvalidRegionID rs.length rd =
          .ok (rs.map (fun r => (codec.id r % 2 ^ 64, r)), rd2) ∧
        rd2.metas = rd.metas ∧ rd2.cur_region_index = rd.metas.length := by
  induction rs with
  | nil =>
    intro _ rd pm tail hm hi _
    refine ⟨rd, rfl, rfl, ?_⟩
    rw [hi, hm]
    simp
  | cons r rs ih =>
    intro hinv rd pm tail hm hi hd
    have hlt : rd.cur_region_index < rd.metas.length := by
      rw [hi, hm]
      simp
    have hget : rd.metas.get ⟨rd.cur_region_index, hlt⟩ = metaOf codec r := by
      have h1 : rd.metas[rd.cur_region_index]? = some (metaOf codec r) := by
        rw [hm, hi, List.getElem?_append_right (Nat.le_refl _)]
        simp only [Nat.sub_self, List.map_cons, List.getElem?_cons_zero]
      have h2 := List.getElem?_eq_getElem hlt
      rw [h2] at h1
      exact Option.some.inj h1
    have hN := hasNext_lt InvalidRegionID rd hlt
    rw [hget] at hN
    have hdes : codec.deserialize (rd.data_file_buf.content.drop rd.data_file_buf.pos) =
        some (r, (codec.serialize r).length) := by
      rw [hd]
      simp only [dataBytes, List.append_assoc]
      exact hinv r (List.mem_cons_self _ _) _
    have hd2 : rd.data_file_buf.content.drop
        (rd.data_file_buf.pos + (codec.serialize r).length) = dataBytes codec rs ++ tail := by
      rw [← List.drop_drop, hd]
      simp only [dataBytes, List.append_assoc]
      exact List.drop_left _ _
    obtain ⟨rd2, hrec, hm2, hi2⟩ := ih (fun r2 h2 => hinv r2 (List.mem_cons_of_mem _ h2))
      { rd with cur_region_index := rd.cur_region_index + 1
                cur_region_size := (metaOf codec r).region_size
                cur_region_offset :=
                  (rd.cur_region_offset + (metaOf codec r).region_size) % 2 ^ 64
                data_file_buf :=
                  { rd.data_file_buf with
                      pos := rd.data_file_buf.pos + (codec.serialize r).length } }
      (pm ++ [metaOf codec r]) tail
      (by simp [hm]) (by simp [hi]) hd2
    refine ⟨rd2, ?_, hm2, hi2⟩
    simp only [List.length_cons, Reader.readAll, hN, Reader.next, hdes, hrec, List.map_cons]
    rfl

theorem readBinary2_cases (buf : ReadBuffer) :
    readBinary2 buf = .error Error.cannotReadAllData ∨
      ∃ v, readBinary2 buf = .ok (v, { buf with pos := buf.pos + 8 }) := by
  unfold readBinary2
  by_cases h : buf.pos + 8 ≤ buf.content.length
  · right
    exact ⟨decodeUInt64 ((buf.content.drop buf.pos).take 8), by simp only [h, if_true]⟩
  · left
    simp only [h, if_false]

/-- The index loop never runs out of fuel when the fuel exceeds the number of
unread bytes, as it does in `Reader.init`. -/
theorem readMetas_fuel (fuel : Nat) :
    ∀ (buf : ReadBuffer) (acc : List ReaderMeta), buf.content.length - buf.pos < fuel →
      readMetas fuel buf acc ≠ .error Error.outOfFuel := by
  induction fuel with
  | zero => intro buf acc h; exact absurd h (Nat.not_lt_zero _)
  | succ f ih =>
    intro buf acc h
    rw [readMetas]
    by_cases he : buf.eof = true
    · simp [he]
    · have hlt : buf.pos < buf.content.length := by
        simpa [ReadBuffer.eof] using he
      simp only [he, Bool.false_eq_true, if_false]
      rcases readBinary2_cases buf with h1 | ⟨v1, h1⟩
      · simp [h1]
      · rcases readBinary2_cases { buf with pos := buf.pos + 8 } with h2 | ⟨v2, h2⟩
        · simp [h1, h2]
        · rcases readBinary2_cases { buf with pos := buf.pos + 8 + 8 } with h3 | ⟨v3, h3⟩
          · simp [h1, h2, h3]
          · simp only [h1, h2, h3]
            apply ih
            simp only
            omega

theorem writeAll_size_data {Region : Type} (codec : RegionCodec Region) (rs : List Region) :
    ∀ w : Writer,
      (Writer.writeAll codec w rs).data_file_size =
        w.data_file_size + (dataBytes codec rs).length := by
  induction rs with
  | nil => intro w; simp [Writer.writeAll, dataBytes]
  | cons r rs ih =>
    intro w
    have h := ih (Writer.write codec w r).2
    simp only [Writer.writeAll, List.foldl_cons] at h ⊢
    rw [h]
    simp only [Writer.write, dataBytes, List.length_append]
    omega

/-- A buffer sized by the length of the file it is opened on delivers the
whole file. -/
theorem ReadBufferFromFile_full (file : List Byte) :
    ReadBufferFromFile file (min file.length DBMS_DEFAULT_BUFFER_SIZE) =
      { content := file, pos := 0 } := by
  unfold ReadBufferFromFile
  by_cases h : min file.length DBMS_DEFAULT_BUFFER_SIZE = 0
  · have hl : file.length = 0 := by
      have hD : DBMS_DEFAULT_BUFFER_SIZE = 1048576 := rfl
      omega
    have hnil : file = [] := List.length_eq_zero.mp hl
    simp [hnil]
  · simp only [h, if_false]

theorem indexBytes_length {Region : Type} (codec : RegionCodec Region) (l : List Region) :
    (indexBytes codec l).length = 24 * l.length := by
  induction l with
  | nil => rfl
  | cons a l ih => simp [indexBytes, indexEntryBytes_length, ih]; omega

/-- The Reader constructed on the files a writer session on a fresh file left
behind: it sees the serialized regions as data and one meta for each
region. -/
theorem init_written {Region : Type} (codec : RegionCodec Region) (file_id : Nat)
    (parent_path : String) (rs : List Region) :
    Reader.init
        (Writer.close (RegionFile.fresh file_id parent_path)
          (Writer.writeAll codec
            (Writer.init (RegionFile.fresh file_id parent_path) Files.fresh) rs)).1
        (Writer.close (RegionFile.fresh file_id parent_path)
          (Writer.writeAll codec
            (Writer.init (RegionFile.fresh file_id parent_path) Files.fresh) rs)).2 =
      .ok { data_file_buf := { content := dataBytes codec rs, pos := 0 }
            metas := rs.map (metaOf codec)
            cur_region_index := 0
            cur_region_size := 0
            cur_region_offset := 0 } := by
  obtain ⟨hdata, hindex⟩ := writeAll_bufs codec rs
    (Writer.init (RegionFile.fresh file_id parent_path) Files.fresh)
  have hdata2 : (Writer.writeAll codec
      (Writer.init (RegionFile.fresh file_id parent_path) Files.fresh) rs).data_file_buf =
      dataBytes codec rs := by
    rw [hdata]; rfl
  have hindex2 : (Writer.writeAll codec
      (Writer.init (RegionFile.fresh file_id parent_path) Files.fresh) rs).index_file_buf =
      indexBytes codec rs := by
    rw [hindex]; rfl
  have hsize : (Writer.writeAll codec
      (Writer.init (RegionFile.fresh file_id parent_path) Files.fresh) rs).data_file_size =
      (dataBytes codec rs).length := by
    rw [writeAll_size_data]
    simp [Writer.init, RegionFile.fresh]
  have hmetas := readMetas_indexBytes codec rs [] [] ((indexBytes codec rs).length + 1)
    (by rw [indexBytes_length]; omega)
  simp only [List.nil_append, List.length_nil] at hmetas
  simp only [Reader.init, Writer.close, hdata2, hindex2, hmetas, hsize,
    ReadBufferFromFile_full]

/-- C8: regions written in order through one Writer to a fresh RegionFile are
read back by a Reader on that file: alternating `hasNext` and `next` gives
the region ids in write order with regions equal to the originals, and the
`hasNext` after the last one returns `InvalidRegionID`. Assumed: on the
bytes `serialize` produced (whatever follows them) `deserialize` returns
the region and consumes exactly those bytes; region ids are 64-bit
values. -/
theorem write_read_round_trip {Region : Type} (codec : RegionCodec Region)
    (InvalidRegionID : RegionID) (file_id : Nat) (parent_path : String) (rs : List Region)
    (hinv : ∀ r ∈ rs, ∀ rest, codec.deserialize (codec.serialize r ++ rest) =
      some (r, (codec.serialize r).length))
    (hid : ∀ r ∈ rs, codec.id r < 2 ^ 64) :
    ∃ rd0 rd1,
      Reader.init
          (Writer.close (RegionFile.fresh file_id parent_path)
            (Writer.writeAll codec
              (Writer.init (RegionFile.fresh file_id parent_path) Files.fresh) rs)).1
          (Writer.close (RegionFile.fresh file_id parent_path)
            (Writer.writeAll codec
              (Writer.init (RegionFile.fresh file_id parent_path) Files.fresh) rs)).2
        = .ok rd0 ∧
      Reader.readAll codec InvalidRegionID rs.length rd0 =
        .ok (rs.map (fun r => (codec.id r, r)), rd1) ∧
      (Reader.hasNext InvalidRegionID rd1).1 = InvalidRegionID := by
  obtain ⟨rd1, hread, hms, hidx⟩ := readAll_written codec InvalidRegionID rs hinv
    { data_file_buf := { content := dataBytes codec rs, pos := 0 }
      metas := rs.map (metaOf codec)
      cur_region_index := 0
      cur_region_size := 0
      cur_region_offset := 0 } [] [] rfl rfl (by simp)
  have hmap : rs.map (fun r => (codec.id r % 2 ^ 64, r)) = rs.map (fun r => (codec.id r, r)) := by
    apply List.map_congr_left
    intro r hr
    rw [Nat.mod_eq_of_lt (hid r hr)]
  rw [hmap] at hread
  refine ⟨_, rd1, init_written codec file_id parent_path rs, hread, ?_⟩
  rw [hasNext_ge InvalidRegionID rd1 (by rw [hidx, hms])]

/-- Witness of C8: regions 1 ("AAAA") and 2 ("BBBBBB") written to a fresh
file are read back as id 1 with the first region, id 2 with the second, then
the sentinel. -/
theorem write_read_round_trip_witness :
    ∃ rd0 rd1,
      Reader.init
          (Writer.close (RegionFile.fresh 1 "p")
            (Writer.writeAll demoCodec
              (Writer.init (RegionFile.fresh 1 "p") Files.fresh)
              [DemoRegion.r1, DemoRegion.r2])).1
          (Writer.close (RegionFile.fresh 1 "p")
            (Writer.writeAll demoCodec
              (Writer.init (RegionFile.fresh 1 "p") Files.fresh)
              [DemoRegion.r1, DemoRegion.r2])).2
        = .ok rd0 ∧
      Reader.readAll demoCodec 0 2 rd0 =
        .ok ([(1, DemoRegion.r1), (2, DemoRegion.r2)], rd1) ∧
      (Reader.hasNext 0 rd1).1 = 0 :=
  write_read_round_trip demoCodec 0 1 "p" [DemoRegion.r1, DemoRegion.r2]
    (by
      intro r _ rest
      cases r <;> simp [demoCodec])
    (by
      intro r _
      cases r <;> simp [demoCodec])

/-! ## The cursor of `hasNext` -/

/-- C9 fails on the code: on the reader of the concrete scenario the first
`hasNext` returns region id 1 and a second `hasNext`, with no `next` or
`skipNext` in between, returns region id 2 and leaves another cached size
and entry cursor than a single call. -/
theorem hasNext_twice_advances :
    (Reader.hasNext 0 demoReader).1 = 1 ∧
    (Reader.hasNext 0 (Reader.hasNext 0 demoReader).2).1 = 2 ∧
    (Reader.hasNext 0 demoReader).2.cur_region_size = 4 ∧
    (Reader.hasNext 0 (Reader.hasNext 0 demoReader).2).2.cur_region_size = 6 ∧
    (Reader.hasNext 0 demoReader).2.cur_region_index = 1 ∧
    (Reader.hasNext 0 (Reader.hasNext 0 demoReader).2).2.cur_region_index = 2 := by
  decide

theorem hasNext_metas (InvalidRegionID : RegionID) (r : Reader) :
    (Reader.hasNext InvalidRegionID r).2.metas = r.metas := by
  by_cases h : r.cur_region_index ≥ r.metas.length
  · rw [hasNext_ge InvalidRegionID r h]
  · rw [hasNext_lt InvalidRegionID r (Nat.lt_of_not_ge h)]

theorem hasNext_index (InvalidRegionID : RegionID) (r : Reader)
    (hle : r.cur_region_index ≤ r.metas.length) :
    (Reader.hasNext InvalidRegionID r).2.cur_region_index =
      min (r.cur_region_index + 1) r.metas.length := by
  by_cases h : r.cur_region_index ≥ r.metas.length
  · rw [hasNext_ge InvalidRegionID r h]
    simp only
    omega
  · rw [hasNext_lt InvalidRegionID r (Nat.lt_of_not_ge h)]
    simp only
    omega

theorem next_metas_index {Region : Type} (codec : RegionCodec Region) (r r2 : Reader)
    (x : Region) (h : Reader.next codec r = .ok (x, r2)) :
    r2.metas = r.metas ∧ r2.cur_region_index = r.cur_region_index := by
  unfold Reader.next at h
  cases hd : codec.deserialize (r.data_file_buf.content.drop r.data_file_buf.pos) with
  | none => simp [hd] at h
  | some p =>
    obtain ⟨region, n⟩ := p
    simp only [hd, Except.ok.injEq, Prod.mk.injEq] at h
    rw [← h.2]
    exact ⟨rfl, rfl⟩

/-- A `skipNext` that returns: the seek target was a non-negative signed offset
within the limit, and position and `cur_region_offset` are at the target. -/
theorem skipNext_ok_inv (seek_limit : Nat) (r r2 : Reader)
    (h : Reader.skipNext seek_limit r = .ok r2) :
    (r.cur_region_offset + r.cur_region_size) % 2 ^ 64 < 2 ^ 63 ∧
    (r.cur_region_offset + r.cur_region_size) % 2 ^ 64 ≤ seek_limit ∧
    r2 = { r with data_file_buf :=
                    { r.data_file_buf with
                        pos := (r.cur_region_offset + r.cur_region_size) % 2 ^ 64 }
                  cur_region_offset := (r.cur_region_offset + r.cur_region_size) % 2 ^ 64 } := by
  unfold Reader.skipNext ReadBuffer.seek at h
  by_cases hc : (r.cur_region_offset + r.cur_region_size) % 2 ^ 64 ≥ 2 ^ 63 ∨
      (r.cur_region_offset + r.cur_region_size) % 2 ^ 64 > seek_limit
  · rw [if_pos hc] at h
    cases h
  · rw [if_neg hc] at h
    simp only [Except.ok.injEq] at h
    refine ⟨by omega, by omega, h.symm⟩

/-- A `skipNext` whose seek target is a non-negative signed offset within the
limit returns. -/
theorem skipNext_ok (seek_limit : Nat) (r : Reader)
    (h1 : (r.cur_region_offset + r.cur_region_size) % 2 ^ 64 < 2 ^ 63)
    (h2 : (r.cur_region_offset + r.cur_region_size) % 2 ^ 64 ≤ seek_limit) :
    Reader.skipNext seek_limit r =
      .ok { r with data_file_buf :=
                     { r.data_file_buf with
                         pos := (r.cur_region_offset + r.cur_region_size) % 2 ^ 64 }
                   cur_region_offset := (r.cur_region_offset + r.cur_region_size) % 2 ^ 64 } := by
  have hc : ¬ ((r.cur_region_offset + r.cur_region_size) % 2 ^ 64 ≥ 2 ^ 63 ∨
      (r.cur_region_offset + r.cur_region_size) % 2 ^ 64 > seek_limit) := by omega
  unfold Reader.skipNext ReadBuffer.seek
  rw [if_neg hc]

/-- A `skipNext` that fails: the seek was refused, for a target that reads as
a negative offset or lies above the limit. -/
theorem skipNext_error_inv (seek_limit : Nat) (r : Reader) (e : Error)
    (h : Reader.skipNext seek_limit r = .error e) :
    e = Error.cannotSeek ∧
    ((r.cur_region_offset + r.cur_region_size) % 2 ^ 64 ≥ 2 ^ 63 ∨
      (r.cur_region_offset + r.cur_region_size) % 2 ^ 64 > seek_limit) := by
  unfold Reader.skipNext ReadBuffer.seek at h
  by_cases hc : (r.cur_region_offset + r.cur_region_size) % 2 ^ 64 ≥ 2 ^ 63 ∨
      (r.cur_region_offset + r.cur_region_size) % 2 ^ 64 > seek_limit
  · rw [if_pos hc] at h
    simp only [Except.error.injEq] at h
    exact ⟨h.symm, hc⟩
  · rw [if_neg hc] at h
    cases h

/-- The protocol keeps `metas` and moves the entry cursor by one for each step,
up to the number of entries. -/
theorem steps_metas_index {Region : Type} (codec : RegionCodec Region)
    (InvalidRegionID : RegionID) (seek_limit : Nat) (choices : List Bool) :
    ∀ (r r2 : Reader), Reader.steps codec InvalidRegionID seek_limit choices r = .ok r2 →
      r.cur_region_index ≤ r.metas.length →
      r2.metas = r.metas ∧
        r2.cur_region_index = min (r.cur_region_index + choices.length) r.metas.length := by
  induction choices with
  | nil =>
    intro r r2 h hle
    simp only [Reader.steps, Except.ok.injEq] at h
    subst h
    exact ⟨rfl, by simp only [List.length_nil]; omega⟩
  | cons c rest ih =>
    intro r r2 h hle
    have hm := hasNext_metas InvalidRegionID r
    have hi := hasNext_index InvalidRegionID r hle
    cases c with
    | true =>
      simp only [Reader.steps, if_true] at h
      cases hn : Reader.next codec (Reader.hasNext InvalidRegionID r).2 with
      | error e => simp [hn] at h
      | ok p =>
        obtain ⟨x, r1⟩ := p
        simp only [hn] at h
        obtain ⟨hm1, hi1⟩ := next_metas_index codec _ r1 x hn
        obtain ⟨hm2, hi2⟩ := ih r1 r2 h (by rw [hm1, hi1, hm, hi]; omega)
        refine ⟨by rw [hm2, hm1, hm], ?_⟩
        rw [hi2, hm1, hi1, hm, hi]
        simp only [List.length_cons]
        omega
    | false =>
      simp only [Reader.steps, Bool.false_eq_true, if_false] at h
      cases hn : Reader.skipNext seek_limit (Reader.hasNext InvalidRegionID r).2 with
      | error e => simp [hn] at h
      | ok r1 =>
        simp only [hn] at h
        obtain ⟨_, _, hr1⟩ := skipNext_ok_inv seek_limit _ r1 hn
        have hm1 : r1.metas = (Reader.hasNext InvalidRegionID r).2.metas := by rw [hr1]
        have hi1 : r1.cur_region_index =
            (Reader.hasNext InvalidRegionID r).2.cur_region_index := by rw [hr1]
        obtain ⟨hm2, hi2⟩ := ih r1 r2 h (by rw [hm1, hi1, hm, hi]; omega)
        refine ⟨by rw [hm2, hm1, hm], ?_⟩
        rw [hi2, hm1, hi1, hm, hi]
        simp only [List.length_cons]
        omega

/-- After `k` protocol steps on a fresh reader with `k` below the number of
entries, `hasNext` returns entry `k` and caches its size. -/
theorem hasNext_in_protocol_aux {Region : Type} (codec : RegionCodec Region)
    (InvalidRegionID : RegionID) (seek_limit : Nat) (r0 : Reader) (choices : List Bool)
    (r : Reader) (h0 : r0.cur_region_index = 0)
    (hrun : Reader.steps codec InvalidRegionID seek_limit choices r0 = .ok r) :
    ∀ hk : choices.length < r0.metas.length,
      Reader.hasNext InvalidRegionID r =
        ((r0.metas.get ⟨choices.length, hk⟩).region_id,
          { r with cur_region_index := choices.length + 1
                   cur_region_size := (r0.metas.get ⟨choices.length, hk⟩).region_size }) := by
  obtain ⟨hm, hi⟩ := steps_metas_index codec InvalidRegionID seek_limit choices r0 r hrun
    (by rw [h0]; exact Nat.zero_le _)
  rw [h0, Nat.zero_add] at hi
  intro hk
  have hidx : r.cur_region_index = choices.length := by rw [hi]; omega
  have hlt : r.cur_region_index < r.metas.length := by rw [hidx, hm]; exact hk
  rw [hasNext_lt InvalidRegionID r hlt]
  have hget : r.metas.get ⟨r.cur_region_index, hlt⟩ = r0.metas.get ⟨choices.length, hk⟩ := by
    simp only [List.get_eq_getElem, hm, hidx]
  rw [hget, hidx]

/-- C10: on a freshly constructed Reader whose every `hasNext` is followed by
exactly one `next` or `skipNext`, after `k` such steps the entry cursor is
`min k n` (never above the number `n` of entries); when `k < n` the
following `hasNext` returns the region id of entry `k` (the `k+1`-th),
caches its `region_size`, moves the entry cursor by one and changes
neither `cur_region_offset` nor the data-file position; when `k ≥ n` it
returns `InvalidRegionID` and leaves the reader as it was. -/
theorem hasNext_in_protocol {Region : Type} (codec : RegionCodec Region)
    (InvalidRegionID : RegionID) (seek_limit : Nat) (r0 : Reader) (choices : List Bool)
    (r : Reader) (h0 : r0.cur_region_index = 0)
    (hrun : Reader.steps codec InvalidRegionID seek_limit choices r0 = .ok r) :
    r.metas = r0.metas ∧
    r.cur_region_index = min choices.length r0.metas.length ∧
    (Reader.hasNext InvalidRegionID r).2.cur_region_index ≤ r0.metas.length ∧
    (∀ hk : choices.length < r0.metas.length,
      Reader.hasNext InvalidRegionID r =
        ((r0.metas.get ⟨choices.length, hk⟩).region_id,
          { r with cur_region_index := choices.length + 1
                   cur_region_size := (r0.metas.get ⟨choices.length, hk⟩).region_size })) ∧
    (r0.metas.length ≤ choices.length →
      Reader.hasNext InvalidRegionID r = (InvalidRegionID, r)) := by
  obtain ⟨hm, hi⟩ := steps_metas_index codec InvalidRegionID seek_limit choices r0 r hrun
    (by rw [h0]; exact Nat.zero_le _)
  rw [h0, Nat.zero_add] at hi
  have hle : r.cur_region_index ≤ r.metas.length := by rw [hi, hm]; omega
  refine ⟨hm, hi, ?_, ?_, ?_⟩
  · rw [hasNext_index InvalidRegionID r hle, hm]
    omega
  · intro hk
    have hidx : r.cur_region_index = choices.length := by rw [hi]; omega
    have hlt : r.cur_region_index < r.metas.length := by rw [hidx, hm]; exact hk
    rw [hasNext_lt InvalidRegionID r hlt]
    have hget : r.metas.get ⟨r.cur_region_index, hlt⟩ = r0.metas.get ⟨choices.length, hk⟩ := by
      simp only [List.get_eq_getElem, hm, hidx]
    rw [hget, hidx]
  · intro hk
    exact hasNext_ge InvalidRegionID r (by rw [hi, hm]; omega)

/-- Witness of C10: on the reader of the concrete scenario, after one step
(`hasNext`, `next`) the second `hasNext` returns region id 2. -/
theorem hasNext_in_protocol_witness :
    (Reader.hasNext 0
      { data_file_buf := { content := [65, 65, 65, 65, 66, 66, 66, 66, 66, 66], pos := 4 }
        metas := [{ region_id := 1, region_size := 4 }, { region_id := 2, region_size := 6 }]
        cur_region_index := 1
        cur_region_size := 4
        cur_region_offset := 4 }).1 = 2 := by
  have h := (hasNext_in_protocol demoCodec 0 0 demoReader [true]
    { data_file_buf := { content := [65, 65, 65, 65, 66, 66, 66, 66, 66, 66], pos := 4 }
      metas := [{ region_id := 1, region_size := 4 }, { region_id := 2, region_size := 6 }]
      cur_region_index := 1
      cur_region_size := 4
      cur_region_offset := 4 } rfl rfl).2.2.2.1 (by decide)
  rw [h]
  rfl

/-! ## Cursor lock-step of `next` and `skipNext` -/

/-- `hasNext` with the entry cursor in front of entry `m`. -/
theorem hasNext_at (InvalidRegionID : RegionID) (r : Reader) (pm rest : List ReaderMeta)
    (m : ReaderMeta) (hm : r.metas = pm ++ m :: rest) (hi : r.cur_region_index = pm.length) :
    Reader.hasNext InvalidRegionID r =
      (m.region_id,
        { r with cur_region_index := r.cur_region_index + 1
                 cur_region_size := m.region_size }) := by
  have hlt : r.cur_region_index < r.metas.length := by
    rw [hi, hm]
    simp
  have hget : r.metas.get ⟨r.cur_region_index, hlt⟩ = m := by
    have h1 : r.metas[r.cur_region_index]? = some m := by
      rw [hm, hi, List.getElem?_append_right (Nat.le_refl _)]
      simp only [Nat.sub_self, List.getElem?_cons_zero]
    have h2 := List.getElem?_eq_getElem hlt
    rw [h2] at h1
    exact Option.some.inj h1
  rw [hasNext_lt InvalidRegionID r hlt, hget]

theorem next_eq_of_deserialize {Region : Type} (codec : RegionCodec Region) (r : Reader)
    (x : Region) (n : Nat)
    (h : codec.deserialize (r.data_file_buf.content.drop r.data_file_buf.pos) = some (x, n)) :
    Reader.next codec r =
      .ok (x, { r with cur_region_offset := (r.cur_region_offset + r.cur_region_size) % 2 ^ 64
                       data_file_buf :=
                         { r.data_file_buf with pos := r.data_file_buf.pos + n } }) := by
  simp only [Reader.next, h]

theorem next_ok_inv {Region : Type} (codec : RegionCodec Region) (r r2 : Reader) (x : Region)
    (h : Reader.next codec r = .ok (x, r2)) :
    ∃ n, codec.deserialize (r.data_file_buf.content.drop r.data_file_buf.pos) = some (x, n) ∧
      r2 = { r with cur_region_offset := (r.cur_region_offset + r.cur_region_size) % 2 ^ 64
                    data_file_buf :=
                      { r.data_file_buf with pos := r.data_file_buf.pos + n } } := by
  unfold Reader.next at h
  cases hd : codec.deserialize (r.data_file_buf.content.drop r.data_file_buf.pos) with
  | none => simp [hd] at h
  | some p =>
    obtain ⟨region, n⟩ := p
    simp only [hd, Except.ok.injEq, Prod.mk.injEq] at h
    exact ⟨n, by rw [h.1], h.2.symm⟩

/-- The cursor after a completed run of protocol steps that stays within the
unread entries `rest`: the offset has moved by the sum of their sizes (as
long as that does not pass `2^64`), the bytes of the data file are the
same, and the data position follows the offset when every `next` consumed
the size recorded for it. -/
theorem steps_cursor {Region : Type} (codec : RegionCodec Region)
    (InvalidRegionID : RegionID) (seek_limit : Nat) (choices : List Bool) :
    ∀ (r r2 : Reader) (pm rest : List ReaderMeta),
      r.metas = pm ++ rest → r.cur_region_index = pm.length →
      choices.length ≤ rest.length →
      r.cur_region_offset + sizeSum (rest.take choices.length) < 2 ^ 64 →
      Reader.steps codec InvalidRegionID seek_limit choices r = .ok r2 →
      r2.cur_region_offset = r.cur_region_offset + sizeSum (rest.take choices.length) ∧
      r2.data_file_buf.content = r.data_file_buf.content ∧
      (Reader.consumesRecorded codec InvalidRegionID seek_limit choices r = true →
        r.data_file_buf.pos = r.cur_region_offset →
        r2.data_file_buf.pos = r2.cur_region_offset) := by
  induction choices with
  | nil =>
    intro r r2 pm rest _ _ _ _ h
    simp only [Reader.steps, Except.ok.injEq] at h
    subst h
    exact ⟨by simp [sizeSum], rfl, fun _ hp => hp⟩
  | cons c cs ih =>
    intro r r2 pm rest hm hi hk hsum h
    cases rest with
    | nil => simp at hk
    | cons m rest2 =>
      have hN := hasNext_at InvalidRegionID r pm rest2 m hm hi
      have hk2 : cs.length ≤ rest2.length := by simpa using hk
      simp only [List.length_cons, List.take_succ_cons, sizeSum] at hsum ⊢
      have hmod : (r.cur_region_offset + m.region_size) % 2 ^ 64 =
          r.cur_region_offset + m.region_size := Nat.mod_eq_of_lt (by omega)
      have hm2 : r.metas = (pm ++ [m]) ++ rest2 := by simp [hm]
      cases c with
      | true =>
        simp only [Reader.steps, if_true, hN] at h
        simp only [Reader.consumesRecorded, if_true, hN]
        cases hn : Reader.next codec
            { r with cur_region_index := r.cur_region_index + 1
                     cur_region_size := m.region_size } with
        | error e => simp [hn] at h
        | ok p =>
          obtain ⟨x, r1⟩ := p
          simp only [hn] at h
          obtain ⟨n, _, hr1⟩ := next_ok_inv codec _ r1 x hn
          simp only [hmod] at hr1
          have hoff : r1.cur_region_offset = r.cur_region_offset + m.region_size := by
            rw [hr1]
          have hcont : r1.data_file_buf.content = r.data_file_buf.content := by rw [hr1]
          have hpos : r1.data_file_buf.pos = r.data_file_buf.pos + n := by rw [hr1]
          obtain ⟨h1, h2, h3⟩ := ih r1 r2 (pm ++ [m]) rest2 (by rw [hr1]; exact hm2)
            (by rw [hr1]; simp [hi]) hk2 (by rw [hoff]; omega) h
          refine ⟨by rw [h1, hoff]; omega, by rw [h2, hcont], ?_⟩
          intro hex hp
          simp only [Bool.and_eq_true, decide_eq_true_eq] at hex
          apply h3 hex.2
          rw [hex.1, hoff, hp]
      | false =>
        simp only [Reader.steps, Bool.false_eq_true, if_false, hN] at h
        simp only [Reader.consumesRecorded, Bool.false_eq_true, if_false, hN]
        cases hn : Reader.skipNext seek_limit
            { r with cur_region_index := r.cur_region_index + 1
                     cur_region_size := m.region_size } with
        | error e => simp [hn] at h
        | ok r1 =>
          simp only [hn] at h
          obtain ⟨_, _, hr1⟩ := skipNext_ok_inv seek_limit _ r1 hn
          simp only [hmod] at hr1
          have hoff : r1.cur_region_offset = r.cur_region_offset + m.region_size := by
            rw [hr1]
          have hcont : r1.data_file_buf.content = r.data_file_buf.content := by rw [hr1]
          have hpos : r1.data_file_buf.pos = r.cur_region_offset + m.region_size := by
            rw [hr1]
          obtain ⟨h1, h2, h3⟩ := ih r1 r2 (pm ++ [m]) rest2 (by rw [hr1]; exact hm2)
            (by rw [hr1]; simp [hi]) hk2 (by rw [hoff]; omega) h
          refine ⟨by rw [h1, hoff]; omega, by rw [h2, hcont], ?_⟩
          intro hex _
          apply h3 hex
          rw [hpos, hoff]

theorem dataBytes_length_cons {Region : Type} (codec : RegionCodec Region) (x : Region)
    (l : List Region) :
    (dataBytes codec (x :: l)).length = (codec.serialize x).length + (dataBytes codec l).length := by
  simp [dataBytes]

/-- The recorded sizes of written regions sum to the number of bytes written,
as long as that is a 64-bit quantity. -/
theorem sizeSum_metaOf {Region : Type} (codec : RegionCodec Region) (l : List Region)
    (h : (dataBytes codec l).length < 2 ^ 64) :
    sizeSum (l.map (metaOf codec)) = (dataBytes codec l).length := by
  induction l with
  | nil => rfl
  | cons x l ih =>
    rw [dataBytes_length_cons] at h ⊢
    have hx : (codec.serialize x).length % 2 ^ 64 = (codec.serialize x).length :=
      Nat.mod_eq_of_lt (by omega)
    simp only [List.map_cons, sizeSum, metaOf, hx]
    rw [ih (by omega)]

theorem split_at_getElem? {α : Type} (l : List α) :
    ∀ (k : Nat) (x : α), l[k]? = some x →
      l = l.take k ++ x :: l.drop (k + 1) ∧ (l.take k).length = k ∧ l.drop k = x :: l.drop (k + 1) := by
  induction l with
  | nil => intro k x h; simp at h
  | cons a l ih =>
    intro k x h
    cases k with
    | zero =>
      simp only [List.getElem?_cons_zero, Option.some.injEq] at h
      subst h
      simp
    | succ j =>
      simp only [List.getElem?_cons_succ] at h
      obtain ⟨h1, h2, h3⟩ := ih j x h
      refine ⟨?_, ?_, ?_⟩
      · simp only [List.take_succ_cons, List.drop_succ_cons, List.cons_append]
        rw [← h1]
      · simp only [List.take_succ_cons, List.length_cons, h2]
      · simp only [List.drop_succ_cons]
        exact h3

/-- On a reader in front of written regions, with the data position at
`cur_region_offset`, every run of steps over the first `k` of them
completes, whatever the mixture of `next` and `skipNext`, provided their
bytes end below `2^63` and within the seek limit; offset and position end
at the bytes of the first `k` regions, in front of the remaining ones. -/
theorem steps_written {Region : Type} (codec : RegionCodec Region)
    (InvalidRegionID : RegionID) (seek_limit : Nat) (choices : List Bool) :
    ∀ (rs : List Region) (rd : Reader) (pm : List ReaderMeta) (tail : List Byte),
      (∀ r ∈ rs, ∀ rest, codec.deserialize (codec.serialize r ++ rest) =
        some (r, (codec.serialize r).length)) →
      rd.metas = pm ++ rs.map (metaOf codec) →
      rd.cur_region_index = pm.length →
      rd.data_file_buf.content.drop rd.data_file_buf.pos = dataBytes codec rs ++ tail →
      rd.data_file_buf.pos = rd.cur_region_offset →
      choices.length ≤ rs.length →
      rd.cur_region_offset + (dataBytes codec (rs.take choices.length)).length < 2 ^ 63 →
      rd.cur_region_offset + (dataBytes codec (rs.take choices.length)).length ≤ seek_limit →
      ∃ r, Reader.steps codec InvalidRegionID seek_limit choices rd = .ok r ∧
        r.metas = rd.metas ∧
        r.cur_region_index = pm.length + choices.length ∧
        r.cur_region_offset =
          rd.cur_region_offset + (dataBytes codec (rs.take choices.length)).length ∧
        r.data_file_buf.pos = r.cur_region_offset ∧
        r.data_file_buf.content.drop r.data_file_buf.pos =
          dataBytes codec (rs.drop choices.length) ++ tail := by
  induction choices with
  | nil =>
    intro rs rd pm tail _ _ hi hd hp _ _ _
    exact ⟨rd, rfl, rfl, by simp [hi], by simp [dataBytes], hp, by simpa using hd⟩
  | cons c cs ih =>
    intro rs rd pm tail hinv hm hi hd hp hk h63 hlim
    cases rs with
    | nil => simp at hk
    | cons x rs2 =>
      have hk2 : cs.length ≤ rs2.length := by simpa using hk
      simp only [List.length_cons, List.take_succ_cons, List.drop_succ_cons] at h63 hlim ⊢
      rw [dataBytes_length_cons] at h63 hlim ⊢
      have hN := hasNext_at InvalidRegionID rd pm (rs2.map (metaOf codec)) (metaOf codec x)
        (by simpa using hm) hi
      have hsize : (metaOf codec x).region_size = (codec.serialize x).length := by
        simp only [metaOf]
        exact Nat.mod_eq_of_lt (by omega)
      have hmod : (rd.cur_region_offset + (codec.serialize x).length) % 2 ^ 64 =
          rd.cur_region_offset + (codec.serialize x).length := Nat.mod_eq_of_lt (by omega)
      have hm2 : rd.metas = (pm ++ [metaOf codec x]) ++ rs2.map (metaOf codec) := by
        simp [hm]
      have hd2 : rd.data_file_buf.content.drop
          (rd.cur_region_offset + (codec.serialize x).length) = dataBytes codec rs2 ++ tail := by
        rw [← hp, ← List.drop_drop, hd]
        simp only [dataBytes, List.append_assoc]
        exact List.drop_left _ _
      have hrec := ih rs2
        { rd with cur_region_index := rd.cur_region_index + 1
                  cur_region_size := (codec.serialize x).length
                  cur_region_offset := rd.cur_region_offset + (codec.serialize x).length
                  data_file_buf :=
                    { rd.data_file_buf with
                        pos := rd.cur_region_offset + (codec.serialize x).length } }
        (pm ++ [metaOf codec x]) tail
        (fun r hr => hinv r (List.mem_cons_of_mem _ hr)) hm2 (by simp [hi]) hd2 rfl hk2
        (by simp only; omega) (by simp only; omega)
      obtain ⟨r, hr, hrm, hri, hro, hrp, hrd⟩ := hrec
      refine ⟨r, ?_, hrm, ?_, ?_, hrp, hrd⟩
      · cases c with
        | true =>
          have hdes : codec.deserialize
              (rd.data_file_buf.content.drop rd.data_file_buf.pos) =
              some (x, (codec.serialize x).length) := by
            rw [hd]
            simp only [dataBytes, List.append_assoc]
            exact hinv x (List.mem_cons_self _ _) _
          have hnext := next_eq_of_deserialize codec
            { rd with cur_region_index := rd.cur_region_index + 1
                      cur_region_size := (metaOf codec x).region_size } x _ hdes
          simp only [hsize, hmod, hp] at hnext
          simp only [Reader.steps, if_true, hN, hsize, hnext]
          exact hr
        | false =>
          have hskip := skipNext_ok seek_limit
            { rd with cur_region_index := rd.cur_region_index + 1
                      cur_region_size := (metaOf codec x).region_size }
            (by simp only [hsize, hmod]; omega) (by simp only [hsize, hmod]; omega)
          simp only [hsize, hmod] at hskip
          simp only [Reader.steps, Bool.false_eq_true, if_false, hN, hsize, hskip]
          exact hr
      · rw [hri]
        simp only [List.length_append, List.length_singleton]
        omega
      · rw [hro]
        simp only
        omega

/-- C11, as stated, fails: over an index whose two entries record the sizes
`2^63 - 1` and `2^63 + 1`, two steps `hasNext`, `next` return regions 1 and
2 and leave `cur_region_offset` at 0, while the sizes of the first two
entries sum to `2^64`. -/
theorem cursor_offset_wraps :
    (∃ r, Reader.steps demoCodec 0 0 [true, true] wrapReader = .ok r ∧
      r.cur_region_offset = 0 ∧
      r.cur_region_offset ≠ sizeSum (wrapReader.metas.take [true, true].length)) ∧
    sizeSum (wrapReader.metas.take 2) = 18446744073709551616 :=
  ⟨⟨{ wrapReader with
        cur_region_index := 2, cur_region_size := 9223372036854775809
        data_file_buf := { content := wrapReader.data_file_buf.content, pos := 10 } },
      rfl, rfl, by decide⟩,
    rfl⟩

/-- Completed runs over any index: the first part of C11 (amended). -/
theorem cursor_lock_step_completed {Region : Type} (codec : RegionCodec Region)
    (InvalidRegionID : RegionID) (seek_limit : Nat) (r0 r : Reader) (choices : List Bool)
    (h0i : r0.cur_region_index = 0) (h0o : r0.cur_region_offset = 0)
    (h0p : r0.data_file_buf.pos = 0)
    (hk : choices.length ≤ r0.metas.length)
    (hsum : sizeSum (r0.metas.take choices.length) < 2 ^ 64)
    (hrun : Reader.steps codec InvalidRegionID seek_limit choices r0 = .ok r) :
    r.cur_region_offset = sizeSum (r0.metas.take choices.length) ∧
    (Reader.consumesRecorded codec InvalidRegionID seek_limit choices r0 = true →
      r.data_file_buf.pos = sizeSum (r0.metas.take choices.length) ∧
      r.data_file_buf.content = r0.data_file_buf.content) := by
  obtain ⟨hoff, hcont, hpos⟩ := steps_cursor codec InvalidRegionID seek_limit choices r0 r []
    r0.metas (by simp) (by simp [h0i]) hk (by rw [h0o]; omega) hrun
  rw [h0o, Nat.zero_add] at hoff
  refine ⟨hoff, ?_⟩
  intro hex
  exact ⟨by rw [hpos hex (by rw [h0p, h0o]), hoff], hcont⟩

/-- Runs over a written file: the second part of C11 (amended). -/
theorem cursor_lock_step_written {Region : Type} (codec : RegionCodec Region)
    (InvalidRegionID : RegionID) (seek_limit : Nat) (file_id : Nat) (parent_path : String)
    (rs : List Region) (choices : List Bool)
    (hinv : ∀ r ∈ rs, ∀ rest, codec.deserialize (codec.serialize r ++ rest) =
      some (r, (codec.serialize r).length))
    (hid : ∀ r ∈ rs, codec.id r < 2 ^ 64)
    (hk : choices.length ≤ rs.length)
    (h63 : (dataBytes codec (rs.take choices.length)).length < 2 ^ 63)
    (hlim : (dataBytes codec (rs.take choices.length)).length ≤ seek_limit) :
    ∃ rd0 r,
      Reader.init
          (Writer.close (RegionFile.fresh file_id parent_path)
            (Writer.writeAll codec
              (Writer.init (RegionFile.fresh file_id parent_path) Files.fresh) rs)).1
          (Writer.close (RegionFile.fresh file_id parent_path)
            (Writer.writeAll codec
              (Writer.init (RegionFile.fresh file_id parent_path) Files.fresh) rs)).2
        = .ok rd0 ∧
      Reader.steps codec InvalidRegionID seek_limit choices rd0 = .ok r ∧
      r.cur_region_offset = sizeSum (rd0.metas.take choices.length) ∧
      r.data_file_buf.pos = r.cur_region_offset ∧
      ∀ x, rs[choices.length]? = some x →
        (Reader.hasNext InvalidRegionID r).1 = codec.id x ∧
        ∃ r2, Reader.next codec (Reader.hasNext InvalidRegionID r).2 = .ok (x, r2) := by
  obtain ⟨r, hrun, hrm, hri, hro, hrp, hrd⟩ := steps_written codec InvalidRegionID seek_limit
    choices rs
    { data_file_buf := { content := dataBytes codec rs, pos := 0 }
      metas := rs.map (metaOf codec)
      cur_region_index := 0
      cur_region_size := 0
      cur_region_offset := 0 } [] [] hinv rfl rfl (by simp) rfl hk
    (by simp only; omega) (by simp only; omega)
  simp only [Nat.zero_add, List.length_nil, List.append_nil] at hri hro hrd
  refine ⟨_, r, init_written codec file_id parent_path rs, hrun, ?_, hrp, ?_⟩
  · rw [hro]
    simp only [← List.map_take]
    exact (sizeSum_metaOf codec _ (by omega)).symm
  · intro x hx
    obtain ⟨hsplit, hlen, hdrop⟩ := split_at_getElem? rs choices.length x hx
    have hmetas : r.metas =
        (rs.take choices.length).map (metaOf codec) ++
          metaOf codec x :: (rs.drop (choices.length + 1)).map (metaOf codec) := by
      rw [hrm]
      simp only
      rw [← List.map_cons, ← List.map_append, ← hsplit]
    have hN := hasNext_at InvalidRegionID r _ _ _ hmetas
      (by rw [hri, List.length_map, hlen])
    have hdes : codec.deserialize (r.data_file_buf.content.drop r.data_file_buf.pos) =
        some (x, (codec.serialize x).length) := by
      rw [hrd, hdrop]
      simp only [dataBytes, List.append_assoc]
      exact hinv x (List.getElem?_mem hx) _
    rw [hN]
    refine ⟨?_, _, next_eq_of_deserialize codec _ x _ hdes⟩
    simp only [metaOf]
    exact Nat.mod_eq_of_lt (hid x (List.getElem?_mem hx))

/-- C11 (amended): (1) on a freshly constructed Reader over any index, after `k`
completed steps (`k` at most the number of entries), each a `hasNext`
followed by `next` or `skipNext` in any mixture, and provided the sizes of
the first `k` index entries sum to less than `2^64`, `cur_region_offset`
equals that sum, and when each `next` consumed exactly the recorded size
the data-file position equals the same sum over the same bytes. (2) On the
Reader of a file a writer session wrote to a fresh RegionFile, whose first
`k` regions take fewer than `2^63` bytes within the seek limit, every such
sequence of `k` steps completes with `cur_region_offset` and the data
position at the sum of the first `k` recorded sizes, and the following
`hasNext`, `next` pair returns the id of the `k+1`-th written region and
that region. -/
theorem cursor_lock_step {Region : Type} (codec : RegionCodec Region)
    (InvalidRegionID : RegionID) (seek_limit : Nat) :
    (∀ (r0 r : Reader) (choices : List Bool),
      r0.cur_region_index = 0 → r0.cur_region_offset = 0 → r0.data_file_buf.pos = 0 →
      choices.length ≤ r0.metas.length →
      sizeSum (r0.metas.take choices.length) < 2 ^ 64 →
      Reader.steps codec InvalidRegionID seek_limit choices r0 = .ok r →
      r.cur_region_offset = sizeSum (r0.metas.take choices.length) ∧
      (Reader.consumesRecorded codec InvalidRegionID seek_limit choices r0 = true →
        r.data_file_buf.pos = sizeSum (r0.metas.take choices.length) ∧
        r.data_file_buf.content = r0.data_file_buf.content)) ∧
    (∀ (file_id : Nat) (parent_path : String) (rs : List Region) (choices : List Bool),
      (∀ r ∈ rs, ∀ rest, codec.deserialize (codec.serialize r ++ rest) =
        some (r, (codec.serialize r).length)) →
      (∀ r ∈ rs, codec.id r < 2 ^ 64) →
      choices.length ≤ rs.length →
      (dataBytes codec (rs.take choices.length)).length < 2 ^ 63 →
      (dataBytes codec (rs.take choices.length)).length ≤ seek_limit →
      ∃ rd0 r,
        Reader.init
            (Writer.close (RegionFile.fresh file_id parent_path)
              (Writer.writeAll codec
                (Writer.init (RegionFile.fresh file_id parent_path) Files.fresh) rs)).1
            (Writer.close (RegionFile.fresh file_id parent_path)
              (Writer.writeAll codec
                (Writer.init (RegionFile.fresh file_id parent_path) Files.fresh) rs)).2
          = .ok rd0 ∧
        Reader.steps codec InvalidRegionID seek_limit choices rd0 = .ok r ∧
        r.cur_region_offset = sizeSum (rd0.metas.take choices.length) ∧
        r.data_file_buf.pos = r.cur_region_offset ∧
        ∀ x, rs[choices.length]? = some x →
          (Reader.hasNext InvalidRegionID r).1 = codec.id x ∧
          ∃ r2, Reader.next codec (Reader.hasNext InvalidRegionID r).2 = .ok (x, r2)) :=
  ⟨fun r0 r choices h0i h0o h0p hk hsum hrun =>
      cursor_lock_step_completed codec InvalidRegionID seek_limit r0 r choices
        h0i h0o h0p hk hsum hrun,
    fun file_id parent_path rs choices hinv hid hk h63 hlim =>
      cursor_lock_step_written codec InvalidRegionID seek_limit file_id parent_path rs choices
        hinv hid hk h63 hlim⟩

/-- Witness of C11 (amended): regions 1 ("AAAA") and 2 ("BBBBBB") are written to
a fresh file; on the Reader of that file, after skipping region 1, the
offset is 4 and the following `hasNext`, `next` pair returns id 2 and
region 2. -/
theorem cursor_lock_step_witness :
    (demoReaderAt1.cur_region_offset = sizeSum (demoReader.metas.take 1)) ∧
    ∃ rd0 r,
      Reader.init
          (Writer.close (RegionFile.fresh 1 "p")
            (Writer.writeAll demoCodec
              (Writer.init (RegionFile.fresh 1 "p") Files.fresh)
              [DemoRegion.r1, DemoRegion.r2])).1
          (Writer.close (RegionFile.fresh 1 "p")
            (Writer.writeAll demoCodec
              (Writer.init (RegionFile.fresh 1 "p") Files.fresh)
              [DemoRegion.r1, DemoRegion.r2])).2
        = .ok rd0 ∧
      Reader.steps demoCodec 0 10 [false] rd0 = .ok r ∧
      r.cur_region_offset = 4 ∧
      (Reader.hasNext 0 r).1 = 2 ∧
      ∃ r2, Reader.next demoCodec (Reader.hasNext 0 r).2 = .ok (DemoRegion.r2, r2) := by
  have h1 := (cursor_lock_step demoCodec 0 10).1 demoReader demoReaderAt1 [false] rfl rfl rfl
    (by decide) (by decide) rfl
  obtain ⟨rd0, r, hinit, hrun, hoff, _, hnext⟩ :=
    (cursor_lock_step demoCodec 0 10).2 1 "p" [DemoRegion.r1, DemoRegion.r2] [false]
      (by
        intro r _ rest
        cases r <;> simp [demoCodec])
      (by
        intro r _
        cases r <;> simp [demoCodec])
      (by decide) (by decide) (by decide)
  obtain ⟨hid2, r2, hn2⟩ := hnext DemoRegion.r2 rfl
  have hrd0 := hinit.symm.trans
    (init_written demoCodec 1 "p" [DemoRegion.r1, DemoRegion.r2])
  simp only [Except.ok.injEq] at hrd0
  refine ⟨h1.1, rd0, r, hinit, hrun, ?_, hid2, r2, hn2⟩
  rw [hoff, hrd0]
  rfl

/-! ## Decoding the index file -/

theorem metasFrom_length (content : List Byte) (n : Nat) :
    ∀ pos, (metasFrom content pos n).length = n := by
  induction n with
  | zero => intro pos; rfl
  | succ k ih => intro pos; simp [metasFrom, ih]

theorem metasFrom_getElem? (content : List Byte) (n : Nat) :
    ∀ pos j, j < n → (metasFrom content pos n)[j]? = some (entryAt content (pos + 24 * j)) := by
  induction n with
  | zero => intro pos j hj; exact absurd hj (Nat.not_lt_zero _)
  | succ k ih =>
    intro pos j hj
    cases j with
    | zero => simp [metasFrom]
    | succ i =>
      have h := ih (pos + 24) i (by omega)
      simp only [metasFrom, List.getElem?_cons_succ, h]
      congr 2
      omega

/-- The index loop on arbitrary bytes: it fails on a short read exactly when
the number of unread bytes is not a multiple of 24, and otherwise appends
the entries laid out from the read position on. -/
theorem readMetas_decode (fuel : Nat) :
    ∀ (buf : ReadBuffer) (acc : List ReaderMeta),
      buf.content.length - buf.pos < fuel → buf.pos ≤ buf.content.length →
      ((buf.content.length - buf.pos) % 24 ≠ 0 →
        readMetas fuel buf acc = .error Error.cannotReadAllData) ∧
      (∀ n, buf.content.length - buf.pos = 24 * n →
        readMetas fuel buf acc = .ok (acc ++ metasFrom buf.content buf.pos n)) := by
  induction fuel with
  | zero => intro buf acc h; exact absurd h (Nat.not_lt_zero _)
  | succ f ih =>
    intro buf acc hf hle
    by_cases he : buf.content.length ≤ buf.pos
    · have hz : buf.content.length - buf.pos = 0 := by omega
      refine ⟨fun h => absurd (by rw [hz]) h, ?_⟩
      intro n hn
      have hn0 : n = 0 := by omega
      subst hn0
      simp [readMetas, ReadBuffer.eof, he, metasFrom]
    · have heof : buf.eof = false := by simp [ReadBuffer.eof, he]
      rw [readMetas]
      simp only [heof, Bool.false_eq_true, if_false]
      by_cases h1 : buf.pos + 8 ≤ buf.content.length
      · by_cases h2 : buf.pos + 8 + 8 ≤ buf.content.length
        · by_cases h3 : buf.pos + 8 + 8 + 8 ≤ buf.content.length
          · simp only [readBinary2, h1, h2, h3, if_true]
            obtain ⟨ihe, ihn⟩ := ih { buf with pos := buf.pos + 8 + 8 + 8 }
              (acc ++ [{ region_id := decodeUInt64 ((buf.content.drop buf.pos).take 8)
                         region_size :=
                           decodeUInt64 ((buf.content.drop (buf.pos + 8)).take 8) }])
              (by simp only; omega) h3
            simp only at ihe ihn
            refine ⟨fun h => ihe (by omega), ?_⟩
            intro n hn
            cases n with
            | zero => omega
            | succ k =>
              rw [ihn k (by omega)]
              simp [metasFrom, entryAt, Nat.add_assoc]
          · simp only [readBinary2, h1, h2, h3, if_true, if_false]
            exact ⟨fun _ => trivial, fun n hn => by omega⟩
        · simp only [readBinary2, h1, h2, if_true, if_false]
          exact ⟨fun _ => trivial, fun n hn => by omega⟩
      · simp only [readBinary2, h1, if_false]
        exact ⟨fun _ => trivial, fun n hn => by omega⟩

/-- C12, as stated, fails: with no data file, Reader construction fails although
the index file holds one well-formed 24-byte entry. -/
theorem Reader_init_fails_without_data_file :
    (∃ e, Reader.init { file_id := 1, parent_path := "p", file_size := 4, regions := [] }
        { data := none,
          index := some [1, 0, 0, 0, 0, 0, 0, 0, 4, 0, 0, 0, 0, 0, 0, 0,
                         0, 0, 0, 0, 0, 0, 0, 0] } = .error e) ∧
    ([1, 0, 0, 0, 0, 0, 0, 0, 4, 0, 0, 0, 0, 0, 0, 0, 0, 0, 0, 0, 0, 0, 0, 0] :
      List Byte).length % 24 = 0 :=
  ⟨⟨Error.cannotOpenFile, rfl⟩, rfl⟩

/-- C12 (amended): when the data file and the index file both exist, Reader
construction fails (with the short-read error of the fixed-width decoder)
if and only if the byte length of the index file is not a multiple of 24;
when the length is `24 * n` it succeeds with exactly `n` metas, the `j`-th
being the region id and region size decoded from bytes `[24j, 24j+8)` and
`[24j+8, 24j+16)` of the file, in file order, whatever the reserved 8 bytes
hold, over a data buffer of `min(file_size, DBMS_DEFAULT_BUFFER_SIZE)` bytes
at position 0 and with the cursor fields 0. When the data file or the index
file does not exist, construction fails on opening it. -/
theorem Reader_init_index_length (region_file : RegionFile) (data index : List Byte) :
    (∀ index_file, Reader.init region_file { data := none, index := index_file } =
      .error Error.cannotOpenFile) ∧
    Reader.init region_file { data := some data, index := none } =
      .error Error.cannotOpenFile ∧
    ((∃ e, Reader.init region_file { data := some data, index := some index } = .error e) ↔
      index.length % 24 ≠ 0) ∧
    (index.length % 24 ≠ 0 →
      Reader.init region_file { data := some data, index := some index } =
        .error Error.cannotReadAllData) ∧
    (∀ n, index.length = 24 * n →
      ∃ rd, Reader.init region_file { data := some data, index := some index } = .ok rd ∧
        rd.metas.length = n ∧
        (∀ j, j < n →
          rd.metas[j]? =
            some { region_id := decodeUInt64 ((index.drop (24 * j)).take 8)
                   region_size := decodeUInt64 ((index.drop (24 * j + 8)).take 8) }) ∧
        rd.data_file_buf =
          ReadBufferFromFile data (min region_file.file_size DBMS_DEFAULT_BUFFER_SIZE) ∧
        rd.cur_region_index = 0 ∧ rd.cur_region_size = 0 ∧ rd.cur_region_offset = 0) := by
  obtain ⟨herr, hok⟩ := readMetas_decode (index.length + 1) { content := index, pos := 0 } []
    (by simp only; omega) (Nat.zero_le _)
  simp only [Nat.sub_zero, List.nil_append] at herr hok
  have hfail : index.length % 24 ≠ 0 →
      Reader.init region_file { data := some data, index := some index } =
        .error Error.cannotReadAllData := by
    intro h
    simp only [Reader.init, herr h]
  have hsucc : ∀ n, index.length = 24 * n →
      Reader.init region_file { data := some data, index := some index } =
        .ok { data_file_buf :=
                ReadBufferFromFile data (min region_file.file_size DBMS_DEFAULT_BUFFER_SIZE)
              metas := metasFrom index 0 n
              cur_region_index := 0
              cur_region_size := 0
              cur_region_offset := 0 } := by
    intro n hn
    simp only [Reader.init, hok n hn]
  refine ⟨fun _ => rfl, rfl, ?_, hfail, ?_⟩
  · constructor
    · rintro ⟨e, he⟩ hmod
      have hn : index.length = 24 * (index.length / 24) := by omega
      rw [hsucc _ hn] at he
      cases he
    · intro h
      exact ⟨_, hfail h⟩
  · intro n hn
    refine ⟨_, hsucc n hn, metasFrom_length _ _ _, ?_, rfl, rfl, rfl, rfl⟩
    intro j hj
    have h := metasFrom_getElem? index n 0 j hj
    simp only [Nat.zero_add, entryAt] at h
    exact h

/-- Witness of C12 (amended): the 48 index bytes of the concrete scenario decode
to the two metas `(1, 4)` and `(2, 6)`, and a 25-byte index file is
rejected. -/
theorem Reader_init_index_length_witness :
    (∃ rd, Reader.init { file_id := 1, parent_path := "p", file_size := 10, regions := [] }
        { data := some [65, 65, 65, 65, 66, 66, 66, 66, 66, 66],
          index := some [1, 0, 0, 0, 0, 0, 0, 0, 4, 0, 0, 0, 0, 0, 0, 0, 0, 0, 0, 0, 0, 0, 0, 0,
                         2, 0, 0, 0, 0, 0, 0, 0, 6, 0, 0, 0, 0, 0, 0, 0, 0, 0, 0, 0, 0, 0, 0, 0] }
        = .ok rd ∧ rd.metas.length = 2 ∧ rd.metas[0]? = some { region_id := 1, region_size := 4 } ∧
        rd.metas[1]? = some { region_id := 2, region_size := 6 }) ∧
    Reader.init { file_id := 1, parent_path := "p", file_size := 10, regions := [] }
        { data := some [65, 65, 65, 65, 66, 66, 66, 66, 66, 66],
          index := some [1, 0, 0, 0, 0, 0, 0, 0, 4, 0, 0, 0, 0, 0, 0, 0, 0, 0, 0, 0, 0, 0, 0, 0,
                         2] }
      = .error Error.cannotReadAllData := by
  constructor
  · obtain ⟨rd, h1, h2, h3, _⟩ := (Reader_init_index_length
      { file_id := 1, parent_path := "p", file_size := 10, regions := [] }
      [65, 65, 65, 65, 66, 66, 66, 66, 66, 66]
      [1, 0, 0, 0, 0, 0, 0, 0, 4, 0, 0, 0, 0, 0, 0, 0, 0, 0, 0, 0, 0, 0, 0, 0,
       2, 0, 0, 0, 0, 0, 0, 0, 6, 0, 0, 0, 0, 0, 0, 0, 0, 0, 0, 0, 0, 0, 0, 0]).2.2.2.2 2 rfl
    exact ⟨rd, h1, h2, h3 0 (by decide), h3 1 (by decide)⟩
  · exact (Reader_init_index_length
      { file_id := 1, parent_path := "p", file_size := 10, regions := [] }
      [65, 65, 65, 65, 66, 66, 66, 66, 66, 66]
      [1, 0, 0, 0, 0, 0, 0, 0, 4, 0, 0, 0, 0, 0, 0, 0, 0, 0, 0, 0, 0, 0, 0, 0, 2]).2.2.2.1
      (by decide)

/-! ## The postcondition of `Writer::write` -/

theorem writeAll_data_file_size {Region : Type} (codec : RegionCodec Region)
    (rs : List Region) :
    ∀ w : Writer,
      (Writer.writeAll codec w rs).data_file_size =
        w.data_file_size + (Writer.writeSizes codec w rs).sum := by
  induction rs with
  | nil => intro w; simp [Writer.writeAll, Writer.writeSizes]
  | cons r rs ih =>
    intro w
    have h := ih (Writer.write codec w r).2
    simp only [Writer.writeAll, List.foldl_cons] at h ⊢
    rw [h]
    simp only [Writer.writeSizes, List.sum_cons, Writer.write]
    omega

theorem take_append_of_length (k : Nat) (l1 l2 : List Byte) (h : l1.length = k) :
    (l1 ++ l2).take k = l1 := by
  rw [← h, List.take_left]

theorem drop_append_of_length (k : Nat) (l1 l2 : List Byte) (h : l1.length = k) :
    (l1 ++ l2).drop k = l2 := by
  rw [← h, List.drop_left]

theorem indexEntryBytes_decode (a b : Nat) :
    decodeUInt64 ((indexEntryBytes a b).take 8) = a % 2 ^ 64 ∧
    decodeUInt64 (((indexEntryBytes a b).drop 8).take 8) = b % 2 ^ 64 ∧
    decodeUInt64 (((indexEntryBytes a b).drop 16).take 8) = 0 := by
  have h1 : (indexEntryBytes a b).take 8 = encodeUInt64 a :=
    take_append_of_length 8 _ _ (encodeUInt64_length a)
  have h2 : ((indexEntryBytes a b).drop 8).take 8 = encodeUInt64 b := by
    unfold indexEntryBytes
    rw [drop_append_of_length 8 _ _ (encodeUInt64_length a)]
    exact take_append_of_length 8 _ _ (encodeUInt64_length b)
  have h3 : ((indexEntryBytes a b).drop 16).take 8 = encodeUInt64 0 := by
    have e : indexEntryBytes a b = (encodeUInt64 a ++ encodeUInt64 b) ++ encodeUInt64 0 := by
      simp [indexEntryBytes]
    have l : (encodeUInt64 a ++ encodeUInt64 b).length = 16 := by
      simp [encodeUInt64_length]
    rw [e, drop_append_of_length 16 _ _ l]
    exact List.take_of_length_le (by simp [encodeUInt64_length])
  rw [h1, h2, h3, decode_encodeUInt64, decode_encodeUInt64, decode_encodeUInt64]
  exact ⟨rfl, rfl, by decide⟩

/-- C13: `write` returns `region_size`, the number of bytes `serialize` appended
to the data file; it appends to the index file exactly one 24-byte record
that encodes the three 64-bit values `(region.id(), region_size, 0)`, the
earlier index bytes staying in place; it increases the `file_size` seen
through the writer by `region_size`; so after a writer session on a file
`file_size` has grown by the sum of the returned sizes, and on a fresh file
it equals that sum. -/
theorem write_postcondition {Region : Type} (codec : RegionCodec Region) (w : Writer)
    (region : Region) (region_file : RegionFile) (files : Files) (rs : List Region)
    (file_id : Nat) (parent_path : String) :
    (Writer.write codec w region).1 = (codec.serialize region).length ∧
    (Writer.write codec w region).2.data_file_buf = w.data_file_buf ++ codec.serialize region ∧
    (Writer.write codec w region).2.index_file_buf =
      w.index_file_buf ++ indexEntryBytes (codec.id region) (Writer.write codec w region).1 ∧
    (indexEntryBytes (codec.id region) (Writer.write codec w region).1).length = 24 ∧
    decodeUInt64 ((indexEntryBytes (codec.id region) (Writer.write codec w region).1).take 8) =
      codec.id region % 2 ^ 64 ∧
    decodeUInt64
        (((indexEntryBytes (codec.id region) (Writer.write codec w region).1).drop 8).take 8) =
      (Writer.write codec w region).1 % 2 ^ 64 ∧
    decodeUInt64
        (((indexEntryBytes (codec.id region) (Writer.write codec w region).1).drop 16).take 8) =
      0 ∧
    (Writer.write codec w region).2.data_file_size =
      w.data_file_size + (Writer.write codec w region).1 ∧
    (Writer.close region_file
        (Writer.writeAll codec (Writer.init region_file files) rs)).1.file_size =
      region_file.file_size + (Writer.writeSizes codec (Writer.init region_file files) rs).sum ∧
    (Writer.close (RegionFile.fresh file_id parent_path)
        (Writer.writeAll codec
          (Writer.init (RegionFile.fresh file_id parent_path) Files.fresh) rs)).1.file_size =
      (Writer.writeSizes codec
        (Writer.init (RegionFile.fresh file_id parent_path) Files.fresh) rs).sum := by
  obtain ⟨d1, d2, d3⟩ := indexEntryBytes_decode (codec.id region) (Writer.write codec w region).1
  refine ⟨rfl, rfl, ?_, indexEntryBytes_length _ _, d1, d2, d3, rfl, ?_, ?_⟩
  · simp [Writer.write, writeIntBinary, indexEntryBytes]
  · simp only [Writer.close]
    rw [writeAll_data_file_size]
    rfl
  · simp only [Writer.close]
    rw [writeAll_data_file_size]
    simp [Writer.init, RegionFile.fresh]

/-- Witness of C13: writing region 1 ("AAAA") then region 2 ("BBBBBB") to a
fresh file gives the index entries `(1, 4, 0)` and `(2, 6, 0)` and
`file_size` 10. -/
theorem write_postcondition_witness :
    (Writer.writeAll demoCodec (Writer.init (RegionFile.fresh 1 "p") Files.fresh)
        [DemoRegion.r1, DemoRegion.r2]).index_file_buf =
      [1, 0, 0, 0, 0, 0, 0, 0, 4, 0, 0, 0, 0, 0, 0, 0, 0, 0, 0, 0, 0, 0, 0, 0,
       2, 0, 0, 0, 0, 0, 0, 0, 6, 0, 0, 0, 0, 0, 0, 0, 0, 0, 0, 0, 0, 0, 0, 0] ∧
    (Writer.close (RegionFile.fresh 1 "p")
        (Writer.writeAll demoCodec (Writer.init (RegionFile.fresh 1 "p") Files.fresh)
          [DemoRegion.r1, DemoRegion.r2])).1.file_size = 10 := by
  refine ⟨by decide, ?_⟩
  rw [(write_postcondition demoCodec (Writer.init (RegionFile.fresh 1 "p") Files.fresh)
    DemoRegion.r1 (RegionFile.fresh 1 "p") Files.fresh [DemoRegion.r1, DemoRegion.r2]
    1 "p").2.2.2.2.2.2.2.2.2]
  rfl

/-! ## `useRate` -/

theorem useRateSize_foldl (regions : RegionAndSizeMap) :
    ∀ acc : Nat, acc + (regions.map Prod.snd).sum < 2 ^ 64 →
      regions.foldl (fun size p => (size + p.2) % 2 ^ 64) acc =
        acc + (regions.map Prod.snd).sum := by
  induction regions with
  | nil => intro acc _; simp
  | cons p rest ih =>
    intro acc h
    simp only [List.map_cons, List.sum_cons] at h
    have hmod : (acc + p.2) % 2 ^ 64 = acc + p.2 := Nat.mod_eq_of_lt (by omega)
    simp only [List.foldl_cons, hmod, List.map_cons, List.sum_cons]
    rw [ih (acc + p.2) (by omega)]
    omega

/-- The operands of the division in `useRate`: when the sizes in `regions` sum
to at most `file_size`, itself a 63-bit quantity, the accumulation does not
wrap and the dividend is the conversion of the exact sum. -/
theorem useRate_operands {F : Type} (ops : Float64Ops F) (self : RegionFile)
    (hS : self.file_size < 2 ^ 63)
    (hL : (self.regions.map Prod.snd).sum ≤ self.file_size) :
    RegionFile.useRate ops self =
      ops.div (ops.ofInteger (self.regions.map Prod.snd).sum) (ops.ofInteger self.file_size) := by
  have h := useRateSize_foldl self.regions 0 (by omega)
  simp only [Nat.zero_add] at h
  simp only [RegionFile.useRate, RegionFile.useRateSize, h]

/-- C15 fails on the code: for a file with `file_size` 0, `useRate` carries out
the `Float64` division with divisor 0, whatever the operations are: on a
fresh file it divides 0 by 0, on a file of size 0 that owns region 7 of size
4 it divides 4 by 0. -/
theorem useRate_divides_by_zero {F : Type} (ops : Float64Ops F) :
    RegionFile.useRate ops (RegionFile.fresh 1 "p") =
      ops.div (ops.ofInteger 0) (ops.ofInteger 0) ∧
    RegionFile.useRate ops
        { file_id := 1, parent_path := "p", file_size := 0, regions := [(7, 4)] } =
      ops.div (ops.ofInteger 4) (ops.ofInteger 0) :=
  ⟨rfl, rfl⟩

/-! ## `destroy` -/

namespace RegionFile

theorem destroy_fs_index (sfx : Suffixes) (self : RegionFile) (fs : FileSystem) :
    (destroy sfx self fs).2 (indexPath sfx self) = none := by
  simp only [destroy]
  cases hi : fs (indexPath sfx self) with
  | none =>
    simp only [Option.isSome_none, Bool.false_eq_true, if_false]
    cases hd : fs (dataPath sfx self) with
    | none => simp [hi]
    | some d =>
      simp only [Option.isSome_some, if_true, FileSystem.remove]
      split
      · rfl
      · exact hi
  | some i =>
    simp only [Option.isSome_some, if_true]
    cases hd : (fs.remove (indexPath sfx self)) (dataPath sfx self) with
    | none => simp [FileSystem.remove]
    | some d =>
      simp only [Option.isSome_some, if_true, FileSystem.remove]
      simp

theorem destroy_fs_data (sfx : Suffixes) (self : RegionFile) (fs : FileSystem) :
    (destroy sfx self fs).2 (dataPath sfx self) = none := by
  simp only [destroy]
  cases hd : (if (fs (indexPath sfx self)).isSome then fs.remove (indexPath sfx self) else fs)
      (dataPath sfx self) with
  | none => simp [hd]
  | some d => simp [FileSystem.remove]

/-- C16: from every RegionFile state and every storage state `destroy` gives a
file with empty `regions`, `file_size` 0 and the same `file_id` and
`parent_path`, and a storage in which neither `dataPath()` nor `indexPath()`
exists; a second `destroy` right after the first changes nothing. -/
theorem destroy_spec (sfx : Suffixes) (self : RegionFile) (fs : FileSystem) :
    (destroy sfx self fs).1.regions = [] ∧
    (destroy sfx self fs).1.file_size = 0 ∧
    (destroy sfx self fs).2 (dataPath sfx (destroy sfx self fs).1) = none ∧
    (destroy sfx self fs).2 (indexPath sfx (destroy sfx self fs).1) = none ∧
    (destroy sfx self fs).1.file_id = self.file_id ∧
    (destroy sfx self fs).1.parent_path = self.parent_path ∧
    destroy sfx (destroy sfx self fs).1 (destroy sfx self fs).2 = destroy sfx self fs := by
  have hi := destroy_fs_index sfx self fs
  have hd := destroy_fs_data sfx self fs
  refine ⟨rfl, rfl, hd, hi, rfl, rfl, ?_⟩
  have hi2 : (destroy sfx self fs).2 (indexPath sfx (destroy sfx self fs).1) = none := hi
  have hd2 : (destroy sfx self fs).2 (dataPath sfx (destroy sfx self fs).1) = none := hd
  have e : destroy sfx (destroy sfx self fs).1 (destroy sfx self fs).2 =
      ({ (destroy sfx self fs).1 with regions := [], file_size := 0 },
        (destroy sfx self fs).2) := by
    simp only [destroy] at hi2 hd2 ⊢
    simp only [hi2, hd2, Option.isSome_none, Bool.false_eq_true, if_false]
  rw [e]
  rfl

end RegionFile

/-! ## `next` and `skipNext` without a preceding `hasNext` -/

/-- C17, as stated, fails: on the freshly constructed reader of the concrete
scenario `next`, with no `hasNext` before it, returns region 1 and moves the
data position to 4; a second `next` right after a `hasNext`, `next` pair
returns region 2 and moves `cur_region_offset` by the stale size 4; and
`skipNext` on the fresh reader returns as well. -/
theorem next_without_hasNext_succeeds :
    Reader.next demoCodec demoReader =
      .ok (DemoRegion.r1,
        { demoReader with
            data_file_buf := { content := demoReader.data_file_buf.content, pos := 4 } }) ∧
    Reader.next demoCodec demoReaderAt1 =
      .ok (DemoRegion.r2,
        { demoReaderAt1 with
            cur_region_offset := 8
            data_file_buf := { content := demoReader.data_file_buf.content, pos := 10 } }) ∧
    Reader.skipNext 10 demoReader = .ok demoReader :=
  ⟨rfl, rfl, rfl⟩

/-- C17 (amended): `next` and `skipNext` do not check that a `hasNext` came
before, and know no usage error. In every reader state `next` fails only
when `deserialize` fails at the data position, and otherwise returns the
region deserialized there, moving `cur_region_offset` by whatever size is
cached and the data position by the bytes consumed, so that a second `next`
in a row adds the same size once more; `skipNext` fails only when its seek
to `cur_region_offset + cur_region_size` is refused, and otherwise moves
position and offset there; on a reader with offset, cached size and
position 0, as freshly constructed, `skipNext` returns the reader
unchanged; and after `hasNext` returned the sentinel both behave as they
would have without that call. -/
theorem next_skipNext_unchecked {Region : Type} (codec : RegionCodec Region)
    (InvalidRegionID : RegionID) (seek_limit : Nat) (r : Reader) :
    (∀ e, Reader.next codec r = .error e →
      e = Error.cannotDeserialize ∧
        codec.deserialize (r.data_file_buf.content.drop r.data_file_buf.pos) = none) ∧
    (∀ x n, codec.deserialize (r.data_file_buf.content.drop r.data_file_buf.pos) = some (x, n) →
      Reader.next codec r =
        .ok (x, { r with cur_region_offset := (r.cur_region_offset + r.cur_region_size) % 2 ^ 64
                         data_file_buf :=
                           { r.data_file_buf with pos := r.data_file_buf.pos + n } })) ∧
    (∀ x r1 y m, Reader.next codec r = .ok (x, r1) →
      codec.deserialize (r1.data_file_buf.content.drop r1.data_file_buf.pos) = some (y, m) →
      ∃ r2, Reader.next codec r1 = .ok (y, r2) ∧
        r2.cur_region_offset = (r1.cur_region_offset + r.cur_region_size) % 2 ^ 64) ∧
    (∀ e, Reader.skipNext seek_limit r = .error e →
      e = Error.cannotSeek ∧
        ((r.cur_region_offset + r.cur_region_size) % 2 ^ 64 ≥ 2 ^ 63 ∨
          (r.cur_region_offset + r.cur_region_size) % 2 ^ 64 > seek_limit)) ∧
    ((r.cur_region_offset + r.cur_region_size) % 2 ^ 64 < 2 ^ 63 →
      (r.cur_region_offset + r.cur_region_size) % 2 ^ 64 ≤ seek_limit →
      Reader.skipNext seek_limit r =
        .ok { r with data_file_buf :=
                       { r.data_file_buf with
                           pos := (r.cur_region_offset + r.cur_region_size) % 2 ^ 64 }
                     cur_region_offset :=
                       (r.cur_region_offset + r.cur_region_size) % 2 ^ 64 }) ∧
    (r.cur_region_offset = 0 → r.cur_region_size = 0 → r.data_file_buf.pos = 0 →
      Reader.skipNext seek_limit r = .ok r) ∧
    (r.cur_region_index ≥ r.metas.length →
      Reader.next codec (Reader.hasNext InvalidRegionID r).2 = Reader.next codec r ∧
      Reader.skipNext seek_limit (Reader.hasNext InvalidRegionID r).2 =
        Reader.skipNext seek_limit r) := by
  refine ⟨?_, fun x n h => next_eq_of_deserialize codec r x n h, ?_,
    fun e h => skipNext_error_inv seek_limit r e h,
    fun h1 h2 => skipNext_ok seek_limit r h1 h2, ?_, ?_⟩
  · intro e h
    unfold Reader.next at h
    cases hd : codec.deserialize (r.data_file_buf.content.drop r.data_file_buf.pos) with
    | none =>
      simp only [hd, Except.error.injEq] at h
      exact ⟨h.symm, rfl⟩
    | some p =>
      obtain ⟨x, n⟩ := p
      simp [hd] at h
  · intro x r1 y m h1 hd
    obtain ⟨n, _, hr1⟩ := next_ok_inv codec r r1 x h1
    have hsize : r1.cur_region_size = r.cur_region_size := by rw [hr1]
    refine ⟨_, next_eq_of_deserialize codec r1 y m hd, ?_⟩
    simp only [hsize]
  · intro ho hs hp
    rw [skipNext_ok seek_limit r (by rw [ho, hs]; decide) (by rw [ho, hs]; exact Nat.zero_le _)]
    have e : (r.cur_region_offset + r.cur_region_size) % 2 ^ 64 = 0 := by
      rw [ho, hs]
      decide
    rw [e]
    cases r with
    | mk buf metas idx size off =>
      cases buf with
      | mk content pos =>
        simp only at ho hp
        subst ho hp
        rfl
  · intro h
    rw [hasNext_ge InvalidRegionID r h]
    exact ⟨rfl, rfl⟩

/-- Witness of C17 (amended): on the fresh reader of the concrete scenario,
where `deserialize` finds region 1 in 4 bytes, `next` returns region 1, and
`skipNext` returns the reader unchanged. -/
theorem next_skipNext_unchecked_witness :
    Reader.next demoCodec demoReader =
      .ok (DemoRegion.r1,
        { demoReader with
            cur_region_offset :=
              (demoReader.cur_region_offset + demoReader.cur_region_size) % 2 ^ 64
            data_file_buf :=
              { demoReader.data_file_buf with pos := demoReader.data_file_buf.pos + 4 } }) ∧
    Reader.skipNext 10 demoReader = .ok demoReader :=
  ⟨(next_skipNext_unchecked demoCodec 0 10 demoReader).2.1 DemoRegion.r1 4 rfl,
    (next_skipNext_unchecked demoCodec 0 10 demoReader).2.2.2.2.2.1 rfl rfl rfl⟩

/-! ## Coverage resolution: `tryCoverRegion` -/

namespace RegionFile

theorem isNone_find_of_contains (m : RegionAndSizeMap) (R : RegionID)
    (h : RegionAndSizeMap.contains m R = true) : (RegionAndSizeMap.find m R).isNone = false := by
  simp only [RegionAndSizeMap.contains] at h
  cases h2 : RegionAndSizeMap.find m R with
  | none => simp [h2] at h
  | some v => rfl

theorem isNone_find_of_not_contains (m : RegionAndSizeMap) (R : RegionID)
    (h : RegionAndSizeMap.contains m R = false) : (RegionAndSizeMap.find m R).isNone = true := by
  simp only [RegionAndSizeMap.contains] at h
  cases h2 : RegionAndSizeMap.find m R with
  | none => rfl
  | some v => simp [h2] at h

/-- The branch `other.file_id == file_id`. -/
theorem tryCoverRegion_same_id (self other : RegionFile) (R : RegionID)
    (h : other.file_id = self.file_id) : tryCoverRegion self other R = (true, self, other) := by
  simp only [tryCoverRegion, h, if_true]

/-- The branch in which `other.regions` has no entry for the region. -/
theorem tryCoverRegion_absent (self other : RegionFile) (R : RegionID)
    (h : RegionAndSizeMap.contains other.regions R = false) :
    tryCoverRegion self other R = (true, self, other) := by
  have h2 := isNone_find_of_not_contains _ _ h
  simp only [tryCoverRegion, h2, if_true, ite_self]

/-- The branch `other.file_id > file_id`: this file is covered. -/
theorem tryCoverRegion_cover_myself (self other : RegionFile) (R : RegionID)
    (hlt : self.file_id < other.file_id)
    (hother : RegionAndSizeMap.contains other.regions R = true) :
    tryCoverRegion self other R =
      (false, { self with regions := (RegionAndSizeMap.erase self.regions R).1 }, other) := by
  have hne : ¬ other.file_id = self.file_id := by omega
  have hsome := isNone_find_of_contains _ _ hother
  have hgt : other.file_id > self.file_id := hlt
  simp only [tryCoverRegion, hne, if_false, hsome, hgt, if_true, Bool.false_eq_true]

/-- The last branch: the other file is covered. -/
theorem tryCoverRegion_cover_other (self other : RegionFile) (R : RegionID)
    (hgt : self.file_id > other.file_id)
    (hother : RegionAndSizeMap.contains other.regions R = true) :
    tryCoverRegion self other R =
      (false, self, { other with regions := (RegionAndSizeMap.erase other.regions R).1 }) := by
  have hne : ¬ other.file_id = self.file_id := by omega
  have hsome := isNone_find_of_contains _ _ hother
  have hngt : ¬ other.file_id > self.file_id := by omega
  simp only [tryCoverRegion, hne, if_false, hsome, hngt, Bool.false_eq_true]

/-- C1: when this file has the smaller `file_id` and both files contain region `R`,
`tryCoverRegion` returns false, erases `R` from this file's `regions` leaving
every other entry as it was, and leaves the other file (which still contains
`R` with the same size) unchanged. -/
theorem tryCoverRegion_smaller_id_loses (self other : RegionFile) (R : RegionID)
    (hlt : self.file_id < other.file_id)
    (_hself : RegionAndSizeMap.contains self.regions R = true)
    (hother : RegionAndSizeMap.contains other.regions R = true) :
    (tryCoverRegion self other R).1 = false ∧
    RegionAndSizeMap.contains (tryCoverRegion self other R).2.1.regions R = false ∧
    (∀ R2, R2 ≠ R →
      RegionAndSizeMap.find (tryCoverRegion self other R).2.1.regions R2 =
        RegionAndSizeMap.find self.regions R2) ∧
    (tryCoverRegion self other R).2.2 = other ∧
    RegionAndSizeMap.contains (tryCoverRegion self other R).2.2.regions R = true ∧
    RegionAndSizeMap.find (tryCoverRegion self other R).2.2.regions R =
      RegionAndSizeMap.find other.regions R := by
  rw [tryCoverRegion_cover_myself self other R hlt hother]
  refine ⟨rfl, RegionAndSizeMap.contains_erase_self _ _, ?_, rfl, hother, rfl⟩
  intro R2 h2
  exact RegionAndSizeMap.find_erase_ne _ _ _ h2

/-- Witness of C1: file 1 and file 2 both hold region 7. -/
theorem tryCoverRegion_smaller_id_loses_witness :
    (tryCoverRegion ⟨1, "p", 10, [(7, 4), (8, 6)]⟩ ⟨2, "p", 4, [(7, 4)]⟩ 7).1 = false ∧
    (tryCoverRegion ⟨1, "p", 10, [(7, 4), (8, 6)]⟩ ⟨2, "p", 4, [(7, 4)]⟩ 7).2.1.regions
      = [(8, 6)] :=
  ⟨(tryCoverRegion_smaller_id_loses ⟨1, "p", 10, [(7, 4), (8, 6)]⟩ ⟨2, "p", 4, [(7, 4)]⟩ 7
      (by decide) (by decide) (by decide)).1, by decide⟩

/-- C2, as stated, fails: with this file 2 and the other file 1, both holding
region 7, the call returns false although this file won. -/
theorem tryCoverRegion_winner_returns_false :
    ¬ (∀ (self other : RegionFile) (R : RegionID),
        self.file_id > other.file_id →
        RegionAndSizeMap.contains self.regions R = true →
        RegionAndSizeMap.contains other.regions R = true →
        (tryCoverRegion self other R).1 = true ∧
        RegionAndSizeMap.contains (tryCoverRegion self other R).2.2.regions R = false ∧
        (tryCoverRegion self other R).2.1.regions = self.regions) := by
  intro h
  have h1 := (h ⟨2, "p", 4, [(7, 4)]⟩ ⟨1, "p", 10, [(7, 4), (8, 6)]⟩ 7
    (by decide) (by decide) (by decide)).1
  revert h1
  decide

/-- C2 (amended): when this file has the larger `file_id` and both files contain
region `R`, `tryCoverRegion` returns false, erases `R` from the other file's
`regions` leaving its other entries as they were, and leaves this file
unchanged. -/
theorem tryCoverRegion_larger_id_wins (self other : RegionFile) (R : RegionID)
    (hgt : self.file_id > other.file_id)
    (_hself : RegionAndSizeMap.contains self.regions R = true)
    (hother : RegionAndSizeMap.contains other.regions R = true) :
    (tryCoverRegion self other R).1 = false ∧
    RegionAndSizeMap.contains (tryCoverRegion self other R).2.2.regions R = false ∧
    (∀ R2, R2 ≠ R →
      RegionAndSizeMap.find (tryCoverRegion self other R).2.2.regions R2 =
        RegionAndSizeMap.find other.regions R2) ∧
    (tryCoverRegion self other R).2.1 = self := by
  rw [tryCoverRegion_cover_other self other R hgt hother]
  refine ⟨rfl, RegionAndSizeMap.contains_erase_self _ _, ?_, rfl⟩
  intro R2 h2
  exact RegionAndSizeMap.find_erase_ne _ _ _ h2

/-- Witness of C2 (amended): file 2 asked about file 1, both hold region 7. -/
theorem tryCoverRegion_larger_id_wins_witness :
    (tryCoverRegion ⟨2, "p", 4, [(7, 4)]⟩ ⟨1, "p", 10, [(7, 4), (8, 6)]⟩ 7).1 = false ∧
    (tryCoverRegion ⟨2, "p", 4, [(7, 4)]⟩ ⟨1, "p", 10, [(7, 4), (8, 6)]⟩ 7).2.2.regions
      = [(8, 6)] :=
  ⟨(tryCoverRegion_larger_id_wins ⟨2, "p", 4, [(7, 4)]⟩ ⟨1, "p", 10, [(7, 4), (8, 6)]⟩ 7
      (by decide) (by decide) (by decide)).1, by decide⟩

/-- C3: for two files with different `file_id`, whatever their `regions` held,
after `tryCoverRegion` the two `regions` maps do not both contain `R`. -/
theorem tryCoverRegion_not_both_contain (self other : RegionFile) (R : RegionID)
    (hne : self.file_id ≠ other.file_id) :
    ¬ (RegionAndSizeMap.contains (tryCoverRegion self other R).2.1.regions R = true ∧
       RegionAndSizeMap.contains (tryCoverRegion self other R).2.2.regions R = true) := by
  rintro ⟨h1, h2⟩
  cases hother : RegionAndSizeMap.contains other.regions R with
  | false =>
    rw [tryCoverRegion_absent self other R hother] at h2
    rw [hother] at h2
    exact Bool.false_ne_true h2
  | true =>
    rcases Nat.lt_or_gt_of_ne hne with hlt | hgt
    · rw [tryCoverRegion_cover_myself self other R hlt hother] at h1
      rw [RegionAndSizeMap.contains_erase_self] at h1
      exact Bool.false_ne_true h1
    · rw [tryCoverRegion_cover_other self other R hgt hother] at h2
      rw [RegionAndSizeMap.contains_erase_self] at h2
      exact Bool.false_ne_true h2

/-- Witness of C3: files 1 and 2 both hold region 7 before the call. -/
theorem tryCoverRegion_not_both_contain_witness :
    ¬ (RegionAndSizeMap.contains
        (tryCoverRegion ⟨1, "p", 4, [(7, 4)]⟩ ⟨2, "p", 4, [(7, 4)]⟩ 7).2.1.regions 7 = true ∧
       RegionAndSizeMap.contains
        (tryCoverRegion ⟨1, "p", 4, [(7, 4)]⟩ ⟨2, "p", 4, [(7, 4)]⟩ 7).2.2.regions 7 = true) :=
  tryCoverRegion_not_both_contain ⟨1, "p", 4, [(7, 4)]⟩ ⟨2, "p", 4, [(7, 4)]⟩ 7 (by decide)

/-- C4: when the other file has the same `file_id` (in particular is this file), or
does not contain `R`, `tryCoverRegion` returns true and both files are as
they were. -/
theorem tryCoverRegion_no_conflict (self other : RegionFile) (R : RegionID)
    (h : other.file_id = self.file_id ∨ RegionAndSizeMap.contains other.regions R = false) :
    (tryCoverRegion self other R).1 = true ∧
    (tryCoverRegion self other R).2.1 = self ∧
    (tryCoverRegion self other R).2.2 = other := by
  rcases h with h | h
  · rw [tryCoverRegion_same_id self other R h]
    exact ⟨rfl, rfl, rfl⟩
  · rw [tryCoverRegion_absent self other R h]
    exact ⟨rfl, rfl, rfl⟩

/-- Witness of C4: a file asked about itself. -/
theorem tryCoverRegion_no_conflict_witness :
    (tryCoverRegion ⟨1, "p", 4, [(7, 4)]⟩ ⟨1, "p", 4, [(7, 4)]⟩ 7).1 = true ∧
    (tryCoverRegion ⟨1, "p", 4, [(7, 4)]⟩ ⟨1, "p", 4, [(7, 4)]⟩ 7).2.1 = ⟨1, "p", 4, [(7, 4)]⟩ ∧
    (tryCoverRegion ⟨1, "p", 4, [(7, 4)]⟩ ⟨1, "p", 4, [(7, 4)]⟩ 7).2.2 = ⟨1, "p", 4, [(7, 4)]⟩ :=
  tryCoverRegion_no_conflict ⟨1, "p", 4, [(7, 4)]⟩ ⟨1, "p", 4, [(7, 4)]⟩ 7 (Or.inl rfl)

/-- C5: a second `tryCoverRegion` with the same arguments leaves both files
(`regions`, `file_id`, `file_size`, every field) as the first call left
them. -/
theorem tryCoverRegion_idempotent (self other : RegionFile) (R : RegionID) :
    (tryCoverRegion (tryCoverRegion self other R).2.1 (tryCoverRegion self other R).2.2 R).2 =
      (tryCoverRegion self other R).2 := by
  by_cases hid : other.file_id = self.file_id
  · rw [tryCoverRegion_same_id self other R hid]
    rw [tryCoverRegion_same_id self other R hid]
  · cases hother : RegionAndSizeMap.contains other.regions R with
    | false =>
      rw [tryCoverRegion_absent self other R hother]
      rw [tryCoverRegion_absent self other R hother]
    | true =>
      rcases Nat.lt_or_gt_of_ne (Ne.symm hid) with hlt | hgt
      · rw [tryCoverRegion_cover_myself self other R hlt hother]
        have h2 := tryCoverRegion_cover_myself
          { self with regions := (RegionAndSizeMap.erase self.regions R).1 } other R hlt hother
        simp only [h2, RegionAndSizeMap.erase_erase]
      · rw [tryCoverRegion_cover_other self other R hgt hother]
        have h2 := tryCoverRegion_absent self
          { other with regions := (RegionAndSizeMap.erase other.regions R).1 } R
          (RegionAndSizeMap.contains_erase_self _ _)
        simp only [h2]

/-! ## `addRegion` and `dropRegion` -/

/-- C6: `addRegion(id, size)` returns true exactly when `id` was a key of
`regions` before the call; afterwards `regions` maps `id` to `size` and the
entry of every other region id is as before. -/
theorem addRegion_spec (self : RegionFile) (id : RegionID) (size : Nat) :
    ((addRegion self id size).1 = true ↔ RegionAndSizeMap.contains self.regions id = true) ∧
    RegionAndSizeMap.find (addRegion self id size).2.regions id = some size ∧
    (∀ id2, id2 ≠ id →
      RegionAndSizeMap.find (addRegion self id size).2.regions id2 =
        RegionAndSizeMap.find self.regions id2) := by
  refine ⟨?_, RegionAndSizeMap.find_insert_self _ _ _, ?_⟩
  · simp only [addRegion, RegionAndSizeMap.insert_or_assign]
    cases h : RegionAndSizeMap.contains self.regions id <;> simp
  · intro id2 h2
    exact RegionAndSizeMap.find_insert_ne _ _ _ _ h2

/-- C7: `dropRegion(id)` returns true exactly when `id` was a key of `regions`
before the call; afterwards `regions` does not contain `id` and the entry of
every other region id is as before; dropping an absent id changes nothing
and returns false. -/
theorem dropRegion_spec (self : RegionFile) (id : RegionID) :
    ((dropRegion self id).1 = true ↔ RegionAndSizeMap.contains self.regions id = true) ∧
    RegionAndSizeMap.contains (dropRegion self id).2.regions id = false ∧
    (∀ id2, id2 ≠ id →
      RegionAndSizeMap.find (dropRegion self id).2.regions id2 =
        RegionAndSizeMap.find self.regions id2) ∧
    (RegionAndSizeMap.contains self.regions id = false → dropRegion self id = (false, self)) := by
  refine ⟨?_, RegionAndSizeMap.contains_erase_self _ _, ?_, ?_⟩
  · simp only [dropRegion, RegionAndSizeMap.erase]
    by_cases h : RegionAndSizeMap.contains self.regions id = true <;> simp [h]
  · intro id2 h2
    exact RegionAndSizeMap.find_erase_ne _ _ _ h2
  · intro h
    have hn : RegionAndSizeMap.find self.regions id = none := by
      have := isNone_find_of_not_contains _ _ h
      simpa using this
    simp only [dropRegion, RegionAndSizeMap.erase, h, RegionAndSizeMap.eraseKey_of_find_none _ _ hn]
    simp

/-! ## Ownership in the conflict branch, and symmetry -/

/-- C19 fails on the code: file 2 does not contain region 7, file 1 does; the
call on file 2 with file 1 as `other` reaches the conflict branch, erases
region 7 from file 1 and returns false, so that afterwards neither file
contains region 7. -/
theorem tryCoverRegion_erases_sole_owner :
    RegionAndSizeMap.contains
        ({ file_id := 2, parent_path := "p", file_size := 0, regions := [] } : RegionFile).regions
        7 = false ∧
    RegionAndSizeMap.contains
        ({ file_id := 1, parent_path := "p", file_size := 4, regions := [(7, 4)] } :
          RegionFile).regions 7 = true ∧
    tryCoverRegion { file_id := 2, parent_path := "p", file_size := 0, regions := [] }
        { file_id := 1, parent_path := "p", file_size := 4, regions := [(7, 4)] } 7 =
      (false, { file_id := 2, parent_path := "p", file_size := 0, regions := [] },
        { file_id := 1, parent_path := "p", file_size := 4, regions := [] }) := by
  decide

/-- C20: for two files `A`, `B` with different `file_id` that both contain `R`,
`A.tryCoverRegion(R, B)` and `B.tryCoverRegion(R, A)` leave the same pair of
files: in both, the file with the smaller `file_id` no longer contains `R`
and keeps every other entry, and the file with the larger `file_id` is
unchanged. -/
theorem tryCoverRegion_symmetric (A B : RegionFile) (R : RegionID)
    (hne : A.file_id ≠ B.file_id)
    (hA : RegionAndSizeMap.contains A.regions R = true)
    (hB : RegionAndSizeMap.contains B.regions R = true) :
    (tryCoverRegion A B R).2.1 = (tryCoverRegion B A R).2.2 ∧
    (tryCoverRegion A B R).2.2 = (tryCoverRegion B A R).2.1 ∧
    (A.file_id < B.file_id →
      (tryCoverRegion A B R).2.2 = B ∧
      RegionAndSizeMap.contains (tryCoverRegion A B R).2.1.regions R = false ∧
      ∀ R2, R2 ≠ R →
        RegionAndSizeMap.find (tryCoverRegion A B R).2.1.regions R2 =
          RegionAndSizeMap.find A.regions R2) ∧
    (B.file_id < A.file_id →
      (tryCoverRegion A B R).2.1 = A ∧
      RegionAndSizeMap.contains (tryCoverRegion A B R).2.2.regions R = false ∧
      ∀ R2, R2 ≠ R →
        RegionAndSizeMap.find (tryCoverRegion A B R).2.2.regions R2 =
          RegionAndSizeMap.find B.regions R2) := by
  rcases Nat.lt_or_gt_of_ne hne with hlt | hgt
  · rw [tryCoverRegion_cover_myself A B R hlt hB, tryCoverRegion_cover_other B A R hlt hA]
    refine ⟨rfl, rfl, ?_, ?_⟩
    · intro _
      exact ⟨rfl, RegionAndSizeMap.contains_erase_self _ _,
        fun R2 h2 => RegionAndSizeMap.find_erase_ne _ _ _ h2⟩
    · intro h
      omega
  · rw [tryCoverRegion_cover_other A B R hgt hB, tryCoverRegion_cover_myself B A R hgt hA]
    refine ⟨rfl, rfl, ?_, ?_⟩
    · intro h
      omega
    · intro _
      exact ⟨rfl, RegionAndSizeMap.contains_erase_self _ _,
        fun R2 h2 => RegionAndSizeMap.find_erase_ne _ _ _ h2⟩

/-- Witness of C20: files 1 and 2 both hold region 7; asked either way, file 1
loses it. -/
theorem tryCoverRegion_symmetric_witness :
    (tryCoverRegion ⟨1, "p", 10, [(7, 4), (8, 6)]⟩ ⟨2, "p", 4, [(7, 4)]⟩ 7).2.1 =
      (tryCoverRegion ⟨2, "p", 4, [(7, 4)]⟩ ⟨1, "p", 10, [(7, 4), (8, 6)]⟩ 7).2.2 ∧
    (tryCoverRegion ⟨1, "p", 10, [(7, 4), (8, 6)]⟩ ⟨2, "p", 4, [(7, 4)]⟩ 7).2.2 =
      (tryCoverRegion ⟨2, "p", 4, [(7, 4)]⟩ ⟨1, "p", 10, [(7, 4), (8, 6)]⟩ 7).2.1 :=
  ⟨(tryCoverRegion_symmetric ⟨1, "p", 10, [(7, 4), (8, 6)]⟩ ⟨2, "p", 4, [(7, 4)]⟩ 7
      (by decide) (by decide) (by decide)).1,
   (tryCoverRegion_symmetric ⟨1, "p", 10, [(7, 4), (8, 6)]⟩ ⟨2, "p", 4, [(7, 4)]⟩ 7
      (by decide) (by decide) (by decide)).2.1⟩

/-- `tryCoverRegion` changes no field but `regions`, of either file. -/
theorem tryCoverRegion_frame (self other : RegionFile) (R : RegionID) :
    (tryCoverRegion self other R).2.1.file_size = self.file_size ∧
    (tryCoverRegion self other R).2.1.file_id = self.file_id ∧
    (tryCoverRegion self other R).2.1.parent_path = self.parent_path ∧
    (tryCoverRegion self other R).2.2.file_size = other.file_size ∧
    (tryCoverRegion self other R).2.2.file_id = other.file_id ∧
    (tryCoverRegion self other R).2.2.parent_path = other.parent_path := by
  unfold tryCoverRegion
  split
  · exact ⟨rfl, rfl, rfl, rfl, rfl, rfl⟩
  · split
    · exact ⟨rfl, rfl, rfl, rfl, rfl, rfl⟩
    · split
      · exact ⟨rfl, rfl, rfl, rfl, rfl, rfl⟩
      · exact ⟨rfl, rfl, rfl, rfl, rfl, rfl⟩

end RegionFile

/-! ## Invariant I3: what changes `file_size` -/

/-- One operation leaves `file_size` as it was, unless it is a `write`, which
does not decrease it, or a `destroy`, which sets it to 0. -/
theorem applyOp_file_size {Region : Type} (codec : RegionCodec Region) (sfx : Suffixes)
    (op : Op Region) (s : RegionFile × FileSystem) :
    (applyOp codec sfx op s).1.file_size = s.1.file_size ∨
    ((∃ region, op = Op.write region) ∧
      s.1.file_size ≤ (applyOp codec sfx op s).1.file_size) ∨
    (op = Op.destroy ∧ (applyOp codec sfx op s).1.file_size = 0) := by
  obtain ⟨self, fs⟩ := s
  cases op with
  | addRegion region_id region_size => exact Or.inl rfl
  | dropRegion region_id => exact Or.inl rfl
  | tryCoverRegion region_id other =>
    exact Or.inl (RegionFile.tryCoverRegion_frame self other region_id).1
  | coveredBy region_id other =>
    exact Or.inl (RegionFile.tryCoverRegion_frame other self region_id).2.2.2.1
  | write region =>
    refine Or.inr (Or.inl ⟨⟨region, rfl⟩, ?_⟩)
    simp only [applyOp, Writer.close, Writer.write, Writer.init]
    omega
  | destroy => exact Or.inr (Or.inr ⟨rfl, rfl⟩)
  | resetId new_file_id => exact Or.inl rfl

theorem applyOps_keepsSize {Region : Type} (codec : RegionCodec Region) (sfx : Suffixes)
    (ops : List (Op Region)) :
    ∀ s : RegionFile × FileSystem, (∀ op ∈ ops, op.keepsSize = true) →
      (applyOps codec sfx ops s).1.file_size = s.1.file_size := by
  induction ops with
  | nil => intro s _; rfl
  | cons op rest ih =>
    intro s h
    have hop : op.keepsSize = true := h op (List.mem_cons_self _ _)
    have hrest := ih (applyOp codec sfx op s) (fun o ho => h o (List.mem_cons_of_mem _ ho))
    simp only [applyOps]
    rw [hrest]
    rcases applyOp_file_size codec sfx op s with h1 | ⟨⟨region, h2⟩, _⟩ | ⟨h3, _⟩
    · exact h1
    · rw [h2] at hop
      exact absurd hop (by simp [Op.keepsSize])
    · rw [h3] at hop
      exact absurd hop (by simp [Op.keepsSize])

/-- C18: `addRegion`, `dropRegion` and `tryCoverRegion` change neither
`file_size` nor `file_id` nor `parent_path`, of this file or of `other`;
`Writer::write` does not decrease the size seen through the writer and
`destroy` sets `file_size` to 0; an operation on a RegionFile leaves
`file_size` as it was unless it is a `write` or a `destroy`, and so does
every sequence of operations with no `write` and no `destroy` in it. -/
theorem file_size_frame {Region : Type} (codec : RegionCodec Region) (sfx : Suffixes) :
    (∀ (self : RegionFile) (id : RegionID) (size : Nat),
      (RegionFile.addRegion self id size).2.file_size = self.file_size ∧
      (RegionFile.addRegion self id size).2.file_id = self.file_id ∧
      (RegionFile.addRegion self id size).2.parent_path = self.parent_path) ∧
    (∀ (self : RegionFile) (id : RegionID),
      (RegionFile.dropRegion self id).2.file_size = self.file_size ∧
      (RegionFile.dropRegion self id).2.file_id = self.file_id ∧
      (RegionFile.dropRegion self id).2.parent_path = self.parent_path) ∧
    (∀ (self other : RegionFile) (R : RegionID),
      (RegionFile.tryCoverRegion self other R).2.1.file_size = self.file_size ∧
      (RegionFile.tryCoverRegion self other R).2.1.file_id = self.file_id ∧
      (RegionFile.tryCoverRegion self other R).2.1.parent_path = self.parent_path ∧
      (RegionFile.tryCoverRegion self other R).2.2.file_size = other.file_size ∧
      (RegionFile.tryCoverRegion self other R).2.2.file_id = other.file_id ∧
      (RegionFile.tryCoverRegion self other R).2.2.parent_path = other.parent_path) ∧
    (∀ (w : Writer) (region : Region),
      w.data_file_size ≤ (Writer.write codec w region).2.data_file_size) ∧
    (∀ (self : RegionFile) (fs : FileSystem),
      (RegionFile.destroy sfx self fs).1.file_size = 0) ∧
    (∀ (op : Op Region) (s : RegionFile × FileSystem),
      (applyOp codec sfx op s).1.file_size = s.1.file_size ∨
      ((∃ region, op = Op.write region) ∧
        s.1.file_size ≤ (applyOp codec sfx op s).1.file_size) ∨
      (op = Op.destroy ∧ (applyOp codec sfx op s).1.file_size = 0)) ∧
    (∀ (ops : List (Op Region)) (s : RegionFile × FileSystem),
      (∀ op ∈ ops, op.keepsSize = true) →
        (applyOps codec sfx ops s).1.file_size = s.1.file_size) := by
  refine ⟨fun _ _ _ => ⟨rfl, rfl, rfl⟩, fun _ _ => ⟨rfl, rfl, rfl⟩,
    fun self other R => RegionFile.tryCoverRegion_frame self other R, ?_,
    fun _ _ => rfl, applyOp_file_size codec sfx, applyOps_keepsSize codec sfx⟩
  intro w region
  simp only [Writer.write]
  omega

/-- Witness of C18: on a file of size 10, adding region 9, losing region 7 to
file 2, dropping region 8 and renumbering the file leave `file_size` 10. -/
theorem file_size_frame_witness :
    (applyOps demoCodec { REGION_DATA_FILE_SUFFIX := ".d", REGION_INDEX_FILE_SUFFIX := ".i" }
        [Op.addRegion 9 3,
         Op.tryCoverRegion 7
           { file_id := 2, parent_path := "p", file_size := 4, regions := [(7, 4)] },
         Op.dropRegion 8, Op.resetId 5]
        ({ file_id := 1, parent_path := "p", file_size := 10, regions := [(7, 4), (8, 6)] },
          fun _ => none)).1.file_size = 10 :=
  (file_size_frame demoCodec
      { REGION_DATA_FILE_SUFFIX := ".d", REGION_INDEX_FILE_SUFFIX := ".i" }).2.2.2.2.2.2
    [Op.addRegion 9 3,
     Op.tryCoverRegion 7 { file_id := 2, parent_path := "p", file_size := 4, regions := [(7, 4)] },
     Op.dropRegion 8, Op.resetId 5]
    ({ file_id := 1, parent_path := "p", file_size := 10, regions := [(7, 4), (8, 6)] },
      fun _ => none)
    (by
      intro op hop
      simp only [List.mem_cons, List.mem_singleton, List.not_mem_nil, or_false] at hop
      rcases hop with h | h | h | h <;> rw [h] <;> rfl)

end DB
